import Mathlib

/-!
# Verification of the `sourcer` parse driver (`src/sourcer/parser.py`)

This file embeds the memoizing, trampolined parse driver of the `sourcer`
repository and proves properties of it.  The repository's `parser.py` is the
authority for the driver (`Parser.run`, `Parser._start`, `Parser._parse`,
`Parser._parse_nothing`, `_parse_text`, `_parse_token`, `_parse_tuple`,
`_parse_simple_struct`, `_parse_assoc_struct`, `_assoc_struct_builder`,
`_struct_fields`, `parse`, `parse_prefix`).  The term combinators defined in
the repository's `terms.py` / `precedence.py` are not present under `src/`;
where a claim needs them they are modelled from the specification, as marked
in the doc comments below.

Python generators (`yield` / `send`) are modelled as explicit state machines
(`Frame` together with the `step` function); the driver's explicit work stack
becomes the recursion structure of the fuel-indexed evaluator `drive`, which
threads the memo table exactly as `Parser.run` / `Parser._start` do: a key is
seeded with `FAILURE` before its suspension runs, re-entrant requests read
that seed, and the definitive answer is written when the suspension finishes.
The evaluator additionally records a log of every `(key, answer)` pair handed
out by `_start`; the log is write-only and does not influence evaluation.
-/

namespace Sourcer

/-- Parse-time values: matched strings, the Python `None` value, tuples of
values, and struct instances (a class name together with the ordered list of
field assignments performed by `setattr`). -/
inductive Val where
  | vstr (s : String)
  | vnone
  | vlist (vs : List Val)
  | vinst (cls : String) (fields : List (String × Val))

/-- The `build` argument of `ReduceLeft` / `ReduceRight`: either the default
plain-tuple builder or the struct-field builder made by
`_assoc_struct_builder` for a `LeftAssoc` / `RightAssoc` class. -/
inductive Build where
  | defaultB
  | structB (cls : String)

deriving DecidableEq

mutual
/-- The term algebra, restricted to the variants the claims exercise.
`nothing` is the Python `None` term, `strlit` a Python string used as a term,
`tup` a Python tuple of terms, and `strukt` / `lassoc` / `rassoc` are
`Struct`, `LeftAssoc` and `RightAssoc` subclasses (identified by class name,
with their field lists supplied by the environment); these are handled
directly by `parser.py`.  `ref` is a `ForwardRef`, resolved through the
environment exactly as `Parser._start` unwraps it.  Modelled from the spec
(their defining file `terms.py` is absent from `src/`): `seqL` is
`Left(a, b)` (parse `a` then `b`, yield `a`'s value), `orElse` is `Or(a, b)`
(ordered choice), `endT` is `End` (succeeds iff at end of source), `retNone`
is `Return(None)`, `backtrack` is `Backtrack()` (succeeds with position
`p - 1` when `p > 0`), `litNone` is `Literal(None)` (matches a `None` input
element), and `reduceL` / `reduceR` are `ReduceLeft` / `ReduceRight`. -/
inductive Term where
  | nothing
  | strlit (s : String)
  | tup (items : TermList)
  | strukt (cls : String)
  | lassoc (cls : String)
  | rassoc (cls : String)
  | reduceL (first : Term) (mids : TermList) (last : Term) (build : Build)
  | reduceR (first : Term) (mids : TermList) (last : Term) (build : Build)
  | seqL (a b : Term)
  | orElse (a b : Term)
  | endT
  | retNone
  | backtrack
  | litNone
  | ref (name : String)

/-- A list of terms (a separate type so that equality of terms is decidable). -/
inductive TermList where
  | nil
  | cons (head : Term) (tail : TermList)
end

deriving instance DecidableEq for Term

/-- Convert an ordinary list of terms into a `TermList`. -/
def TermList.ofList : List Term → TermList
  | [] => .nil
  | t :: ts => .cons t (TermList.ofList ts)

/-- An element of a token (non-string) source: either the Python value `None`
or an object carrying an optional `content` attribute (`none` models an
object with no `content` attribute). -/
inductive Elem where
  | enone
  | etok (content : Option String)

deriving DecidableEq

/-- The `content` attribute of an input element, if present.  The Python
value `None` has no `content` attribute. -/
def Elem.contentAttr : Elem → Option String
  | .enone => none
  | .etok c => c

/-- A source is either a character sequence (a Python string) or an
indexable sequence of token elements; `Parser.__init__` inspects which. -/
inductive Source where
  | chars (s : List Char)
  | toks (es : List Elem)

/-- The length of the source. -/
def Source.length : Source → Nat
  | .chars s => s.length
  | .toks es => es.length

/-- A driver answer: `noAns` is the Python `None` ("no result yet"),
`failure` is `ParseFailure`, and `success v p` is `ParseResult(v, p)`. -/
inductive Ans where
  | noAns
  | failure
  | success (v : Val) (p : Nat)

/-- Exceptions that escape the driver: `parseError` is the `ParseError`
raised by `Parser.run`, `attrError` is the `AttributeError` raised by
`getattr(next, 'content')` on an element with no `content` attribute,
`outOfFuel` marks a computation that exceeds the step budget (Python simply
keeps running), and `stuck` marks operations that would raise other Python
exceptions (an unresolvable `ForwardRef`, an unknown struct class, a
protocol violation of the generator discipline). -/
inductive Exc where
  | parseError
  | attrError
  | outOfFuel
  | stuck

deriving DecidableEq

/-- The grammar environment: `refs` resolves `ForwardRef` names to terms
(`ForwardRef.preparse`), and `structs` gives the ordered field list that
`_struct_fields` collects for a struct class by replaying its declarative
`parse` hook (each field name paired with its term, in assignment order). -/
structure Env where
  refs : String → Option Term
  structs : String → Option (List (String × Term))

/-- A memo key: the `(term, position)` pair used by `Parser._start`. -/
abbrev Key := Term × Nat

/-- The memo table `M`, newest entry first; `memoInsert` shadows older
entries, so a lookup always sees the most recent write. -/
abbrev Memo := List (Key × Ans)

/-- Look up a key in the memo table. -/
def memoLookup : Memo → Key → Option Ans
  | [], _ => none
  | (k', a) :: m, k => if k' = k then some a else memoLookup m k

/-- Write an answer for a key into the memo table. -/
def memoInsert (m : Memo) (k : Key) (a : Ans) : Memo := (k, a) :: m

/-- Unwrap `ForwardRef` terms repeatedly, as the `while` loop at the top of
`Parser._start` does, resolving each name through the environment.  `none`
models a resolution that never reaches a concrete term (a cyclic or missing
reference, on which the Python loop would not terminate or would raise). -/
def resolveRef (env : Env) : Nat → Term → Option Term
  | 0, t => match t with
            | .ref _ => none
            | t => some t
  | fuel + 1, t =>
    match t with
    | .ref n => match env.refs n with
                | none => none
                | some t' => resolveRef env fuel t'
    | t => some t

/-- The suspension states of the per-combinator generators.  `init t p` is a
generator freshly created by `Parser._parse(t, p)` that has not yet been
advanced; the other constructors are the resumption points between `yield`
statements. -/
inductive Frame where
  | init (t : Term) (p : Nat)
  | tupleLoop (pending : TermList) (acc : List Val)
  | structLoop (cls : String) (cur : String) (pending : List (String × Term)) (acc : List (String × Val))
  | seqLWaitA (b : Term)
  | seqLWaitB (va : Val)
  | orWait (b : Term) (p : Nat)
  | orPass
  | rlAfterFirst (mids : TermList) (last : Term) (build : Build)
  | rlMids (mids : TermList) (last : Term) (build : Build) (acc : Val) (grpStart : Nat) (pending : TermList) (ops : List Val)
  | rlLast (mids : TermList) (last : Term) (build : Build) (acc : Val) (grpStart : Nat) (ops : List Val)
  | rrFirst (first : Term) (mids : TermList) (last : Term) (build : Build) (prefixes : List (Val × List Val)) (grpStart : Nat)
  | rrMids (first : Term) (mids : TermList) (last : Term) (build : Build) (prefixes : List (Val × List Val)) (grpStart : Nat) (lv : Val) (pending : TermList) (ops : List Val)
  | rrLast (build : Build) (prefixes : List (Val × List Val))

/-- One step of a suspension: it emits a sub-request `ParseStep(t, p)`
together with its own next state, finishes with a final answer, or raises. -/
inductive StepRes where
  | request (t : Term) (p : Nat) (k : Frame)
  | done (a : Ans)
  | err (e : Exc)

/-- The delegate term that `Parser._parse_assoc_struct` builds (and caches)
for a `LeftAssoc` / `RightAssoc` class: `first` is the first field's term,
`middle` the middle fields' terms, `last` the last field's term, and the
build function writes the fields of a fresh instance.  `none` models the
`IndexError` Python would raise on a field-less class. -/
def delegateOf (env : Env) (isLeft : Bool) (cls : String) : Option Term :=
  match env.structs cls with
  | none => none
  | some [] => none
  | some (f0 :: rest) =>
    let first := f0.2
    let middle := TermList.ofList ((rest.dropLast).map Prod.snd)
    let last := (rest.getLastD f0).2
    some (if isLeft then .reduceL first middle last (.structB cls)
          else .reduceR first middle last (.structB cls))

/-- Apply a build function to `(left, op_values, right)`.  The default build
is the spec's "plain 3-tuple" (with a single middle value spliced in bare, as
in the repository's tests); the struct build is `_assoc_struct_builder`'s
closure: allocate a fresh instance and assign `[left] + list(op) + [right]`
to the field names in declaration order (`zip` truncates on mismatch). -/
def applyBuild (env : Env) : Build → Val → List Val → Val → Val
  | .defaultB, l, ops, r =>
    match ops with
    | [w] => .vlist [l, w, r]
    | _ => .vlist ([l] ++ ops ++ [r])
  | .structB cls, l, ops, r =>
    let names := ((env.structs cls).getD []).map Prod.fst
    .vinst cls (names.zip ([l] ++ ops ++ [r]))

/-- Start (or continue) a left-reduction round at position `q` with the
accumulator `acc`: request the middle terms in order, then the last term. -/
def rlGroupStep (mids : TermList) (last : Term) (build : Build) (acc : Val) (q : Nat) : StepRes :=
  match mids with
  | .nil => .request last q (.rlLast mids last build acc q [])
  | .cons m ms => .request m q (.rlMids mids last build acc q ms [])

/-- The initial emission of a `ReduceLeft` / `ReduceRight` suspension:
request the `first` term.  Shared by the reduce terms themselves and by the
`LeftAssoc` / `RightAssoc` structs, whose generator **is** their delegate's
generator (`_parse_assoc_struct` returns `self._parse(self.delegates[term], pos)`). -/
def reduceInitStep (isLeft : Bool) (f : Term) (mids : TermList) (l : Term) (b : Build) (p : Nat) : StepRes :=
  match isLeft with
  | true => .request f p (.rlAfterFirst mids l b)
  | false => .request f p (.rrFirst f mids l b [] p)

/-- Advance a suspension by sending it an answer (`generator.send(ans)` in
`Parser.run`).  A fresh generator is first advanced with `noAns` (Python's
`send(None)`); thereafter it receives the answer of the sub-request it
yielded.  Each case transcribes the corresponding `_parse_*` generator from
`parser.py`, or, for the combinators whose source is absent from `src/`, the
specification's description of that combinator. -/
def step (env : Env) (src : Source) : Frame → Ans → StepRes
  | .init t p, .noAns =>
    match t with
    | .nothing => .done (.success .vnone p)
    | .retNone => .done (.success .vnone p)
    | .endT => .done (if p = src.length then .success .vnone p else .failure)
    | .backtrack => .done (if 0 < p then .success .vnone (p - 1) else .failure)
    | .strlit s =>
      match src with
      | .chars cs =>
        .done (if (cs.drop p).take s.length = s.data
               then .success (.vstr s) (p + s.length) else .failure)
      | .toks es =>
        if h : p < es.length then
          match (es.get ⟨p, h⟩).contentAttr with
          | none => .err .attrError
          | some c => .done (if c = s then .success (.vstr s) (p + 1) else .failure)
        else .done .failure
    | .litNone =>
      match src with
      | .chars _ => .done .failure
      | .toks es =>
        if h : p < es.length then
          .done (if es.get ⟨p, h⟩ = .enone then .success .vnone (p + 1) else .failure)
        else .done .failure
    | .tup items =>
      match items with
      | .nil => .done (.success (.vlist []) p)
      | .cons t1 ts => .request t1 p (.tupleLoop ts [])
    | .strukt cls =>
      match env.structs cls with
      | none => .err .stuck
      | some [] => .done (.success (.vinst cls []) p)
      | some ((n1, t1) :: fs) => .request t1 p (.structLoop cls n1 fs [])
    | .lassoc cls =>
      match delegateOf env true cls with
      | some (.reduceL f mids l b) => reduceInitStep true f mids l b p
      | _ => .err .stuck
    | .rassoc cls =>
      match delegateOf env false cls with
      | some (.reduceR f mids l b) => reduceInitStep false f mids l b p
      | _ => .err .stuck
    | .reduceL f mids l b => reduceInitStep true f mids l b p
    | .reduceR f mids l b => reduceInitStep false f mids l b p
    | .seqL a b => .request a p (.seqLWaitA b)
    | .orElse a b => .request a p (.orWait b p)
    | .ref _ => .err .stuck
  | .tupleLoop _ _, .failure => .done .failure
  | .tupleLoop pending acc, .success v q =>
    match pending with
    | .nil => .done (.success (.vlist (acc ++ [v])) q)
    | .cons t2 ts => .request t2 q (.tupleLoop ts (acc ++ [v]))
  | .structLoop _ _ _ _, .failure => .done .failure
  | .structLoop cls cur pending acc, .success v q =>
    match pending with
    | [] => .done (.success (.vinst cls (acc ++ [(cur, v)])) q)
    | (n2, t2) :: fs => .request t2 q (.structLoop cls n2 fs (acc ++ [(cur, v)]))
  | .seqLWaitA _, .failure => .done .failure
  | .seqLWaitA b, .success va pa => .request b pa (.seqLWaitB va)
  | .seqLWaitB _, .failure => .done .failure
  | .seqLWaitB va, .success _ pb => .done (.success va pb)
  | .orWait b p, .failure => .request b p .orPass
  | .orWait _ _, .success v q => .done (.success v q)
  | .orPass, .failure => .done .failure
  | .orPass, .success v q => .done (.success v q)
  | .rlAfterFirst _ _ _, .failure => .done .failure
  | .rlAfterFirst mids l b, .success v q => rlGroupStep mids l b v q
  | .rlMids _ _ _ acc grp _ _, .failure => .done (.success acc grp)
  | .rlMids mids0 l b acc grp pending ops, .success w q =>
    match pending with
    | .nil => .request l q (.rlLast mids0 l b acc grp (ops ++ [w]))
    | .cons m ms => .request m q (.rlMids mids0 l b acc grp ms (ops ++ [w]))
  | .rlLast _ _ _ acc grp _, .failure => .done (.success acc grp)
  | .rlLast mids0 l b acc _ ops, .success r q =>
    rlGroupStep mids0 l b (applyBuild env b acc ops r) q
  | .rrFirst _ _ l b prefixes grp, .failure =>
    match prefixes with
    | [] => .done .failure
    | _ => .request l grp (.rrLast b prefixes)
  | .rrFirst f mids l b prefixes grp, .success v q =>
    match mids with
    | .nil => .request f q (.rrFirst f mids l b (prefixes ++ [(v, [])]) q)
    | .cons m ms => .request m q (.rrMids f mids l b prefixes grp v ms [])
  | .rrMids _ _ l b prefixes grp _ _ _, .failure =>
    match prefixes with
    | [] => .done .failure
    | _ => .request l grp (.rrLast b prefixes)
  | .rrMids f mids0 l b prefixes grp lv pending ops, .success w q =>
    match pending with
    | .nil => .request f q (.rrFirst f mids0 l b (prefixes ++ [(lv, ops ++ [w])]) q)
    | .cons m ms => .request m q (.rrMids f mids0 l b prefixes grp lv ms (ops ++ [w]))
  | .rrLast _ prefixes, .failure =>
    match prefixes with
    | _ => .done .failure
  | .rrLast b prefixes, .success r q =>
    .done (.success (prefixes.foldr (fun pr res => applyBuild env b pr.1 pr.2 res) r) q)
  | _, _ => .err .stuck

/-- The driver state: the memo table owned by one `Parser`, plus a
write-only log of every `(key, answer)` pair that `_start` hands out (used
to state observational-transparency properties; evaluation never reads it). -/
structure St where
  memo : Memo
  log : List (Key × Ans)

/-- A unit of driver work: start a `(term, position)` pair
(`Parser._start`), or resume a suspension with an answer (the body of the
`while` loop in `Parser.run`). -/
inductive Job where
  | key (t : Term) (p : Nat)
  | frame (fr : Frame) (ans : Ans)

/-- The driver.  `drive … (.key t p)` is `Parser._start(t, p)` followed by
running the pushed suspension to completion; `drive … (.frame fr ans)` feeds
`ans` to a suspension and keeps running it until it produces its final
answer.  As in `Parser._start`: forward references are unwrapped first, a
memoized key answers immediately, and otherwise the key is seeded with
`ParseFailure` before its suspension runs and receives the definitive answer
when it finishes.  The fuel only bounds the recursion depth; Python has no
such bound and simply keeps executing. -/
def drive (env : Env) (src : Source) : Nat → St → Job → Except Exc (St × Ans)
  | 0, _, _ => .error .outOfFuel
  | fuel + 1, st, .key t p =>
    match resolveRef env (fuel + 1) t with
    | none => .error .stuck
    | some t' =>
      match memoLookup st.memo (t', p) with
      | some a => .ok ({ st with log := st.log ++ [((t', p), a)] }, a)
      | none =>
        match drive env src fuel { memo := memoInsert st.memo (t', p) .failure, log := st.log }
                (.frame (.init t' p) .noAns) with
        | .error e => .error e
        | .ok (st2, a) =>
          .ok ({ memo := memoInsert st2.memo (t', p) a, log := st2.log ++ [((t', p), a)] }, a)
  | fuel + 1, st, .frame fr ans =>
    match step env src fr ans with
    | .err e => .error e
    | .done a => .ok (st, a)
    | .request t p k =>
      match drive env src fuel st (.key t p) with
      | .error e => .error e
      | .ok (st1, a1) => drive env src fuel st1 (.frame k a1)

/-- `Parser(source).run(term)` up to the final failure check: evaluate the
term at position 0 with a fresh memo table and return the driver's answer. -/
def runRaw (env : Env) (src : Source) (fuel : Nat) (t : Term) : Except Exc (St × Ans) :=
  drive env src fuel { memo := [], log := [] } (.key t 0)

/-- `parse_prefix(term, source)`: run the driver; raise `ParseError` iff the
answer is `ParseFailure`, otherwise return the answer (a `ParseResult`). -/
def parse_prefixE (env : Env) (src : Source) (fuel : Nat) (t : Term) : Except Exc Ans :=
  match runRaw env src fuel t with
  | .error e => .error e
  | .ok (_, .failure) => .error .parseError
  | .ok (_, a) => .ok a

/-- `parse(term, source)`: wrap the term as `Left(term, End)`, run
`parse_prefix`, and return the `value` component of the resulting
`ParseResult`.  (Were the answer not a `ParseResult`, the attribute access
`ans.value` would raise; the `failure` arm is unreachable because
`parse_prefix` already raised `ParseError`.) -/
def parseE (env : Env) (src : Source) (fuel : Nat) (t : Term) : Except Exc Val :=
  match parse_prefixE env src fuel (.seqL t .endT) with
  | .error e => .error e
  | .ok (.success v _) => .ok v
  | .ok .noAns => .error .attrError
  | .ok .failure => .error .parseError

/-- Sequential evaluation of a struct's declared fields, as the loop of
`_parse_simple_struct` performs it: parse each field term in declaration
order, each field starting at the position where the previous one ended,
recording `(field_name, value)` pairs in order; a failing field aborts the
whole struct parse; the final position is the one after the last field. -/
def fieldsRun (env : Env) (src : Source) (fuel : Nat) :
    List (String × Term) → St → Nat → Except Exc (St × Option (List (String × Val) × Nat))
  | [], st, p => .ok (st, some ([], p))
  | (n, t) :: fs, st, p =>
    match drive env src fuel st (.key t p) with
    | .error e => .error e
    | .ok (_, .noAns) => .error .stuck
    | .ok (st1, .failure) => .ok (st1, none)
    | .ok (st1, .success v q) =>
      match fieldsRun env src fuel fs st1 q with
      | .error e => .error e
      | .ok (st2, none) => .ok (st2, none)
      | .ok (st2, some (fvs, r)) => .ok (st2, some ((n, v) :: fvs, r))

mutual
/-- Terms that do not mention `Backtrack` (whose success reports `pos - 1`).
Struct classes and forward references are covered by the environment-level
condition `envNoBT`. -/
def noBT : Term → Bool
  | .backtrack => false
  | .tup items => noBTL items
  | .reduceL f mids l _ => noBT f && noBTL mids && noBT l
  | .reduceR f mids l _ => noBT f && noBTL mids && noBT l
  | .seqL a b => noBT a && noBT b
  | .orElse a b => noBT a && noBT b
  | _ => true

/-- All terms of a `TermList` are backtrack-free. -/
def noBTL : TermList → Bool
  | .nil => true
  | .cons t ts => noBT t && noBTL ts
end

/-- Every term reachable through the environment (forward references and
declared struct fields) is backtrack-free. -/
def envNoBT (env : Env) : Prop :=
  (∀ n t, env.refs n = some t → noBT t = true) ∧
  (∀ c fts, env.structs c = some fts → ∀ pr ∈ fts, noBT pr.2 = true)

/-- An answer respects the floor `f`: a success does not report a position
below `f`. -/
def AnsOK : Ans → Nat → Prop
  | .success _ q, f => f ≤ q
  | _, _ => True

/-- Every success stored in the memo ends at or after its own start
position. -/
def memoPosOK (m : Memo) : Prop :=
  ∀ (t : Term) (p q : Nat) (v : Val), memoLookup m (t, p) = some (.success v q) → p ≤ q

/-- The invariant a suspension maintains with respect to the floor `f` (the
start position of its memo key): the positions it has stored are at or after
`f` and the terms it will still request are backtrack-free. -/
def FrameOK : Frame → Nat → Prop
  | .init t p, f => f ≤ p ∧ noBT t = true
  | .tupleLoop pending _, _ => noBTL pending = true
  | .structLoop _ _ pending _, _ => ∀ pr ∈ pending, noBT pr.2 = true
  | .seqLWaitA b, _ => noBT b = true
  | .seqLWaitB _, _ => True
  | .orWait b p, f => f ≤ p ∧ noBT b = true
  | .orPass, _ => True
  | .rlAfterFirst mids l _, _ => noBTL mids = true ∧ noBT l = true
  | .rlMids mids l _ _ grp pending _, f =>
      f ≤ grp ∧ noBTL mids = true ∧ noBT l = true ∧ noBTL pending = true
  | .rlLast mids l _ _ grp _, f => f ≤ grp ∧ noBTL mids = true ∧ noBT l = true
  | .rrFirst fst mids l _ _ grp, f =>
      f ≤ grp ∧ noBT fst = true ∧ noBTL mids = true ∧ noBT l = true
  | .rrMids fst mids l _ _ grp _ pending _, f =>
      f ≤ grp ∧ noBT fst = true ∧ noBTL mids = true ∧ noBT l = true ∧ noBTL pending = true
  | .rrLast _ _, _ => True

/-- What one suspension step guarantees relative to the floor `f`: a final
answer respects the floor, and a sub-request is at a position at or after
the floor, asks for a backtrack-free term, and leaves a well-formed
continuation. -/
def StepOK (f : Nat) : StepRes → Prop
  | .done a => AnsOK a f
  | .request t q k => f ≤ q ∧ noBT t = true ∧ FrameOK k f
  | .err _ => True

/-- A memo table that never holds the `noAns` marker. -/
def memoNoNoAns (m : Memo) : Prop := ∀ k : Key, memoLookup m k ≠ some .noAns

/-- `Left(term, End)`: the wrapper `parse` puts around a term. -/
def simW1 (T : Term) : Term := .seqL T .endT

/-- The wrapper applied twice. -/
def simW2 (T : Term) : Term := .seqL (.seqL T .endT) .endT

/-- The simulation relation between the memo of the run of `Left(T, End)`
(the A side) and the memo of the run of `Left(Left(T, End), End)` (the B
side), once both roots have been seeded: the two memos agree except that the
B side additionally holds the tentative `FAILURE` for the double wrapper,
and both sides hold the tentative `FAILURE` for the single wrapper.  The
extra entry is inert: a fresh evaluation of the double wrapper immediately
re-enters the seeded single wrapper and also fails. -/
def simRel (T : Term) (stA stB : St) : Prop :=
  (∀ k : Key, k ≠ (simW2 T, 0) → memoLookup stB.memo k = memoLookup stA.memo k) ∧
  memoLookup stB.memo (simW2 T, 0) = some .failure ∧
  (memoLookup stA.memo (simW2 T, 0) = none ∨
    memoLookup stA.memo (simW2 T, 0) = some .failure) ∧
  memoLookup stA.memo (simW1 T, 0) = some .failure

/-- The answer `End` produces at position `p`: success (without consuming)
exactly at the end of the source. -/
def endAns (src : Source) (p : Nat) : Ans :=
  if p = src.length then .success .vnone p else .failure

/-- Every completed memo entry for `End` is its deterministic answer. -/
def endMemoOK (src : Source) (m : Memo) : Prop :=
  ∀ (p : Nat) (a : Ans), memoLookup m (.endT, p) = some a → a = endAns src p

/-- Every success stored for a `Left(x, End)` key ends at the end of the
source. -/
def leftEndMemoOK (src : Source) (m : Memo) : Prop :=
  ∀ (x : Term) (p q : Nat) (v : Val),
    memoLookup m (.seqL x .endT, p) = some (.success v q) → q = src.length

/-- The combined `End` invariant on memo tables. -/
def endInv (src : Source) (m : Memo) : Prop := endMemoOK src m ∧ leftEndMemoOK src m

/-! ## Concrete grammars used as witnesses and counterexamples -/

/-- An environment with no forward references and no struct classes. -/
def emptyEnv : Env := ⟨fun _ => none, fun _ => none⟩

/-- A self-left-recursive grammar: the forward reference `g` resolves to
`Or(Left(g, "b"), "a")`, the shape the spec's tentative-`FAILURE` seed is
designed to terminate. -/
def lrTerm : Term := .orElse (.seqL (.ref "g") (.strlit "b")) (.strlit "a")

/-- The environment binding `g` to `lrTerm`. -/
def lrEnv : Env := ⟨fun n => if n = "g" then some lrTerm else none, fun _ => none⟩

/-- The log of `(key, answer)` pairs handed out by `_start` during a run. -/
def runLog (env : Env) (src : Source) (fuel : Nat) (t : Term) : Option (List (Key × Ans)) :=
  match runRaw env src fuel t with
  | .ok (st, _) => some st.log
  | .error _ => none

/-- Observational transparency of memoization during one parse: every two
answers handed out for the same `(term, position)` pair are identical. -/
def transparentRun (env : Env) (src : Source) (fuel : Nat) (t : Term) : Prop :=
  ∀ L, runLog env src fuel t = some L →
    ∀ k a1 a2, (k, a1) ∈ L → (k, a2) ∈ L → a1 = a2

/-- Spec-side definition for C6: the delegate as §4.4 of the specification
words it, for a `LeftAssoc` / `RightAssoc` struct type with the given
declared fields: a `ReduceLeft` (resp. `ReduceRight`) whose `first` is the
first declared field's term, whose middles are the middle fields' terms,
whose `last` is the last field's term, and whose build writes the struct's
fields. -/
def specAssocDelegate (isLeft : Bool) (cls : String) (fields : List (String × Term)) :
    Option Term :=
  match fields with
  | [] => none
  | f0 :: rest =>
    let first := f0.2
    let middles := TermList.ofList (((f0 :: rest).drop 1).dropLast.map Prod.snd)
    let last := ((f0 :: rest).getLast (by simp)).2
    some (if isLeft then .reduceL first middles last (.structB cls)
          else .reduceR first middles last (.structB cls))

/-- Spec-side definition for C6: the build allocates a fresh instance of the
struct type and assigns the values `(left, op_values…, right)` to the field
names in declaration order. -/
def specAssocBuild (cls : String) (names : List String) (l : Val) (ops : List Val) (r : Val) :
    Val :=
  .vinst cls (names.zip ([l] ++ ops ++ [r]))

/-- The `Pair` struct used as the concrete witness for C5: fields `left`,
`sep`, `right` parsing "1", "," and "2". -/
def pairFields : List (String × Term) :=
  [("left", .strlit "1"), ("sep", .strlit ","), ("right", .strlit "2")]

/-- The environment declaring the `Pair` struct. -/
def pairEnv : Env := ⟨fun _ => none, fun c => if c = "Pair" then some pairFields else none⟩

/-! ## One-layer unfolding equations for the driver -/

theorem drive_zero (env : Env) (src : Source) (st : St) (j : Job) :
    drive env src 0 st j = .error .outOfFuel := rfl

theorem drive_succ_key (env : Env) (src : Source) (fuel : Nat) (st : St) (t : Term) (p : Nat) :
    drive env src (fuel + 1) st (.key t p) =
      match resolveRef env (fuel + 1) t with
      | none => .error .stuck
      | some t' =>
        match memoLookup st.memo (t', p) with
        | some a => .ok ({ st with log := st.log ++ [((t', p), a)] }, a)
        | none =>
          match drive env src fuel { memo := memoInsert st.memo (t', p) .failure, log := st.log }
                  (.frame (.init t' p) .noAns) with
          | .error e => .error e
          | .ok (st2, a) =>
            .ok ({ memo := memoInsert st2.memo (t', p) a, log := st2.log ++ [((t', p), a)] }, a) := rfl

theorem drive_succ_frame (env : Env) (src : Source) (fuel : Nat) (st : St) (fr : Frame) (ans : Ans) :
    drive env src (fuel + 1) st (.frame fr ans) =
      match step env src fr ans with
      | .err e => .error e
      | .done a => .ok (st, a)
      | .request t p k =>
        match drive env src fuel st (.key t p) with
        | .error e => .error e
        | .ok (st1, a1) => drive env src fuel st1 (.frame k a1) := rfl

/-! ## Basic lemmas about the memo table -/

theorem memoLookup_insert_self (m : Memo) (k : Key) (a : Ans) :
    memoLookup (memoInsert m k a) k = some a := by
  simp [memoInsert, memoLookup]

theorem memoLookup_insert_ne (m : Memo) (k k' : Key) (a : Ans) (h : k ≠ k') :
    memoLookup (memoInsert m k a) k' = memoLookup m k' := by
  simp [memoInsert, memoLookup, h]

/-- C1, part of the driver's contract, as one reusable lemma: a request for a
memoized key answers from the memo at once and leaves the memo unchanged. -/
theorem drive_key_hit (env : Env) (src : Source) (fuel : Nat) (st : St)
    (t t' : Term) (p : Nat) (a : Ans)
    (hres : resolveRef env (fuel + 1) t = some t')
    (hhit : memoLookup st.memo (t', p) = some a) :
    drive env src (fuel + 1) st (.key t p) =
      .ok ({ st with log := st.log ++ [((t', p), a)] }, a) := by
  simp [drive, hres, hhit]

/-- The driver's contract on a fresh key: seed the memo with `FAILURE`, run
the new suspension from its initial state, then record its answer. -/
theorem drive_key_miss (env : Env) (src : Source) (fuel : Nat) (st : St)
    (t t' : Term) (p : Nat)
    (hres : resolveRef env (fuel + 1) t = some t')
    (hmiss : memoLookup st.memo (t', p) = none) :
    drive env src (fuel + 1) st (.key t p) =
      match drive env src fuel { memo := memoInsert st.memo (t', p) .failure, log := st.log }
              (.frame (.init t' p) .noAns) with
      | .error e => .error e
      | .ok (st2, a) =>
        .ok ({ memo := memoInsert st2.memo (t', p) a, log := st2.log ++ [((t', p), a)] }, a) := by
  simp [drive, hres, hmiss]

/-! ## Fuel monotonicity: a result reached within the budget is stable -/

theorem resolveRef_mono (env : Env) :
    ∀ (n : Nat) (t t' : Term), resolveRef env n t = some t' →
      resolveRef env (n + 1) t = some t' := by
  intro n
  induction n with
  | zero =>
    intro t t' h
    cases t <;> simp_all [resolveRef]
  | succ m ih =>
    intro t t' h
    cases t
    case ref nm =>
      simp only [resolveRef] at h ⊢
      cases hr : env.refs nm with
      | none => simp [hr] at h
      | some t2 =>
        simp only [hr] at h ⊢
        exact ih _ _ h
    all_goals simp_all [resolveRef]

theorem drive_mono (env : Env) (src : Source) :
    ∀ (fuel : Nat) (st : St) (j : Job) (r : St × Ans),
      drive env src fuel st j = .ok r → drive env src (fuel + 1) st j = .ok r := by
  intro fuel
  induction fuel with
  | zero => intro st j r h; simp [drive] at h
  | succ n ih =>
    intro st j r h
    cases j with
    | key t p =>
      rw [drive_succ_key] at h
      rw [drive_succ_key]
      cases hres : resolveRef env (n + 1) t with
      | none => simp only [hres] at h; exact absurd h (by simp)
      | some t' =>
        simp only [resolveRef_mono env _ _ _ hres]
        simp only [hres] at h
        cases hhit : memoLookup st.memo (t', p) with
        | some a => simp only [hhit] at h ⊢; exact h
        | none =>
          simp only [hhit] at h ⊢
          cases hfr : drive env src n { memo := memoInsert st.memo (t', p) .failure, log := st.log }
              (.frame (.init t' p) .noAns) with
          | error e => simp only [hfr] at h; exact absurd h (by simp)
          | ok r2 =>
            simp only [hfr] at h
            simp only [ih _ _ _ hfr]
            exact h
    | frame fr ans =>
      rw [drive_succ_frame] at h
      rw [drive_succ_frame]
      cases hstep : step env src fr ans with
      | err e => simp only [hstep] at h; exact absurd h (by simp)
      | done a => simp only [hstep] at h ⊢; exact h
      | request t p k =>
        simp only [hstep] at h ⊢
        cases hkey : drive env src n st (.key t p) with
        | error e => simp only [hkey] at h; exact absurd h (by simp)
        | ok r1 =>
          simp only [hkey] at h
          simp only [ih _ _ _ hkey]
          obtain ⟨st1, a1⟩ := r1
          exact ih _ _ _ h

/-- Fuel monotonicity, iterated. -/
theorem drive_mono_le (env : Env) (src : Source) {fuel fuel' : Nat}
    (hle : fuel ≤ fuel') {st : St} {j : Job} {r : St × Ans}
    (h : drive env src fuel st j = .ok r) : drive env src fuel' st j = .ok r := by
  induction hle with
  | refl => exact h
  | step _ ih => exact drive_mono env src _ _ _ _ ih

/-! ## The memo table is append-only: a written entry is never changed -/

theorem drive_preserves_memo (env : Env) (src : Source) :
    ∀ (fuel : Nat) (st : St) (j : Job) (st' : St) (a : Ans),
      drive env src fuel st j = .ok (st', a) →
      ∀ (k : Key) (b : Ans), memoLookup st.memo k = some b → memoLookup st'.memo k = some b := by
  intro fuel
  induction fuel with
  | zero => intro st j st' a h; simp [drive_zero] at h
  | succ n ih =>
    intro st j st' a h k b hk
    cases j with
    | key t p =>
      rw [drive_succ_key] at h
      cases hres : resolveRef env (n + 1) t with
      | none => simp only [hres] at h; exact absurd h (by simp)
      | some t' =>
        simp only [hres] at h
        cases hhit : memoLookup st.memo (t', p) with
        | some a0 =>
          simp only [hhit] at h
          obtain ⟨h1, h2⟩ := by simpa using h
          rw [← h1]; exact hk
        | none =>
          simp only [hhit] at h
          have hne : (t', p) ≠ k := fun he => by rw [he, hk] at hhit; exact absurd hhit (by simp)
          cases hfr : drive env src n { memo := memoInsert st.memo (t', p) .failure, log := st.log }
              (.frame (.init t' p) .noAns) with
          | error e => simp only [hfr] at h; exact absurd h (by simp)
          | ok r2 =>
            simp only [hfr] at h
            obtain ⟨st2, a2⟩ := r2
            obtain ⟨h1, h2⟩ := by simpa using h
            have hseed : memoLookup (memoInsert st.memo (t', p) .failure) k = some b := by
              rw [memoLookup_insert_ne _ _ _ _ hne]; exact hk
            have hst2 := ih _ _ _ _ hfr k b hseed
            rw [← h1]
            simp only []
            rw [memoLookup_insert_ne _ _ _ _ hne]
            exact hst2
    | frame fr ans =>
      rw [drive_succ_frame] at h
      cases hstep : step env src fr ans with
      | err e => simp only [hstep] at h; exact absurd h (by simp)
      | done a0 =>
        simp only [hstep] at h
        obtain ⟨h1, h2⟩ := by simpa using h
        rw [← h1]; exact hk
      | request t p kf =>
        simp only [hstep] at h
        cases hkey : drive env src n st (.key t p) with
        | error e => simp only [hkey] at h; exact absurd h (by simp)
        | ok r1 =>
          simp only [hkey] at h
          obtain ⟨st1, a1⟩ := r1
          exact ih _ _ _ _ h k b (ih _ _ _ _ hkey k b hk)

/-! ## The driver never produces the "no result yet" marker as an answer -/

/-- No suspension finishes with `noAns`: every `done` emitted by `step` is a
genuine `ParseResult` or `ParseFailure`. -/
theorem step_done_ne_noAns (env : Env) (src : Source) (fr : Frame) (ans : Ans) (a : Ans)
    (h : step env src fr ans = .done a) : a ≠ .noAns := by
  intro hno
  subst hno
  cases fr <;> cases ans <;>
    simp only [step, reduceInitStep, rlGroupStep] at h <;>
    (repeat' split at h) <;> simp_all

theorem memoNoNoAns_insert {m : Memo} {k : Key} {a : Ans}
    (hm : memoNoNoAns m) (ha : a ≠ .noAns) : memoNoNoAns (memoInsert m k a) := by
  intro k'
  by_cases hk : k = k'
  · subst hk
    rw [memoLookup_insert_self]
    simpa using ha
  · rw [memoLookup_insert_ne _ _ _ _ hk]
    exact hm k'

theorem drive_no_noAns (env : Env) (src : Source) :
    ∀ (fuel : Nat) (st : St) (j : Job) (st' : St) (a : Ans),
      memoNoNoAns st.memo → drive env src fuel st j = .ok (st', a) →
      memoNoNoAns st'.memo ∧ a ≠ .noAns := by
  intro fuel
  induction fuel with
  | zero => intro st j st' a _ h; simp [drive_zero] at h
  | succ n ih =>
    intro st j st' a hm h
    cases j with
    | key t p =>
      rw [drive_succ_key] at h
      cases hres : resolveRef env (n + 1) t with
      | none => simp only [hres] at h; exact absurd h (by simp)
      | some t' =>
        simp only [hres] at h
        cases hhit : memoLookup st.memo (t', p) with
        | some a0 =>
          simp only [hhit] at h
          obtain ⟨h1, h2⟩ := by simpa using h
          subst h2
          constructor
          · rw [← h1]; exact hm
          · intro hno; subst hno; exact hm _ hhit
        | none =>
          simp only [hhit] at h
          cases hfr : drive env src n { memo := memoInsert st.memo (t', p) .failure, log := st.log }
              (.frame (.init t' p) .noAns) with
          | error e => simp only [hfr] at h; exact absurd h (by simp)
          | ok r2 =>
            simp only [hfr] at h
            obtain ⟨st2, a2⟩ := r2
            obtain ⟨h1, h2⟩ := by simpa using h
            subst h2
            have hseed : memoNoNoAns (memoInsert st.memo (t', p) Ans.failure) :=
              memoNoNoAns_insert hm (by simp)
            obtain ⟨hm2, ha2⟩ := ih _ _ _ _ hseed hfr
            constructor
            · rw [← h1]
              exact memoNoNoAns_insert hm2 ha2
            · exact ha2
    | frame fr ans =>
      rw [drive_succ_frame] at h
      cases hstep : step env src fr ans with
      | err e => simp only [hstep] at h; exact absurd h (by simp)
      | done a0 =>
        simp only [hstep] at h
        obtain ⟨h1, h2⟩ := by simpa using h
        subst h2
        constructor
        · rw [← h1]; exact hm
        · exact step_done_ne_noAns env src _ _ _ hstep
      | request t p kf =>
        simp only [hstep] at h
        cases hkey : drive env src n st (.key t p) with
        | error e => simp only [hkey] at h; exact absurd h (by simp)
        | ok r1 =>
          simp only [hkey] at h
          obtain ⟨st1, a1⟩ := r1
          obtain ⟨hm1, _⟩ := ih _ _ _ _ hm hkey
          exact ih _ _ _ _ hm1 h

/-! ## Wrapping with Left(term, End): simulation infrastructure for C2 -/

/-- A term is strictly smaller than itself wrapped in `Left(·, End)`. -/
theorem seqL_ne (t : Term) : t ≠ Term.seqL t .endT := by
  intro h
  have hs := congrArg sizeOf h
  simp at hs
  omega

/-- The driver itself never raises `ParseError`; that exception is created
only by `parse_prefix`'s final check. -/
theorem drive_no_parseError (env : Env) (src : Source) :
    ∀ (fuel : Nat) (st : St) (j : Job) (e : Exc),
      drive env src fuel st j = .error e → e ≠ .parseError := by
  intro fuel
  induction fuel with
  | zero =>
    intro st j e h
    rw [drive_zero] at h
    simp only [Except.error.injEq] at h
    subst h
    simp
  | succ n ih =>
    intro st j e h
    cases j with
    | key t p =>
      rw [drive_succ_key] at h
      cases hres : resolveRef env (n + 1) t with
      | none =>
        simp only [hres, Except.error.injEq] at h
        subst h
        simp
      | some t' =>
        simp only [hres] at h
        cases hhit : memoLookup st.memo (t', p) with
        | some a => simp [hhit] at h
        | none =>
          simp only [hhit] at h
          cases hfr : drive env src n
              { memo := memoInsert st.memo (t', p) .failure, log := st.log }
              (.frame (.init t' p) .noAns) with
          | error e2 =>
            simp only [hfr, Except.error.injEq] at h
            subst h
            exact ih _ _ _ hfr
          | ok r2 =>
            obtain ⟨st2, a2⟩ := r2
            simp [hfr] at h
    | frame fr ans =>
      rw [drive_succ_frame] at h
      cases hstep : step env src fr ans with
      | err e2 =>
        simp only [hstep, Except.error.injEq] at h
        subst h
        revert hstep
        cases fr <;> cases ans <;>
          simp only [step, reduceInitStep, rlGroupStep] <;>
          (intro hstep; repeat' split at hstep) <;> (try cases hstep) <;> simp_all
      | done a => simp [hstep] at h
      | request t p k =>
        simp only [hstep] at h
        cases hkey : drive env src n st (.key t p) with
        | error e2 =>
          simp only [hkey, Except.error.injEq] at h
          subst h
          exact ih _ _ _ hkey
        | ok r1 =>
          obtain ⟨st1, a1⟩ := r1
          simp only [hkey] at h
          exact ih _ _ _ h

/-- The two wrappers are distinct terms. -/
theorem simW1_ne_simW2 (T : Term) : simW1 T ≠ simW2 T := by
  intro h
  simp only [simW1, simW2, Term.seqL.injEq] at h
  exact seqL_ne T h.1

/-- Forward simulation: any evaluation over the A-side memo also runs over
the B-side memo (which additionally holds the inert tentative `FAILURE` for
the double wrapper), with the same answer, preserving the relation. -/
theorem sim_fwd (env : Env) (src : Source) (T : Term) :
    ∀ (fuel : Nat) (stA stB : St) (j : Job) (stA' : St) (a : Ans),
      simRel T stA stB →
      drive env src fuel stA j = .ok (stA', a) →
      ∃ stB', drive env src fuel stB j = .ok (stB', a) ∧ simRel T stA' stB' := by
  intro fuel
  induction fuel with
  | zero =>
    intro stA stB j stA' a _ h
    rw [drive_zero] at h
    exact absurd h (by simp)
  | succ n ih =>
    intro stA stB j stA' a hrel h
    obtain ⟨hEq, hBK2, hAK2, hAK1⟩ := hrel
    cases j with
    | frame fr ans =>
      rw [drive_succ_frame] at h
      cases hstep : step env src fr ans with
      | err e => simp [hstep] at h
      | done a0 =>
        simp only [hstep] at h
        obtain ⟨h1, h2⟩ : stA = stA' ∧ a0 = a := by simpa using h
        subst h1; subst h2
        refine ⟨stB, ?_, hEq, hBK2, hAK2, hAK1⟩
        rw [drive_succ_frame]
        simp only [hstep]
      | request t q k =>
        simp only [hstep] at h
        cases hkey : drive env src n stA (.key t q) with
        | error e => simp [hkey] at h
        | ok r1 =>
          obtain ⟨stA1, a1⟩ := r1
          rw [hkey] at h
          dsimp only at h
          obtain ⟨stB1, hB1, hrel1⟩ := ih stA stB (.key t q) stA1 a1 ⟨hEq, hBK2, hAK2, hAK1⟩ hkey
          obtain ⟨stB', hB2, hrel2⟩ := ih stA1 stB1 (.frame k a1) stA' a hrel1 h
          refine ⟨stB', ?_, hrel2⟩
          rw [drive_succ_frame]
          simp only [hstep, hB1]
          exact hB2
    | key t p =>
      rw [drive_succ_key] at h
      cases hres : resolveRef env (n + 1) t with
      | none => simp [hres] at h
      | some t' =>
        simp only [hres] at h
        by_cases hK2 : ((t', p) : Key) = (simW2 T, 0)
        · rw [Prod.mk.injEq] at hK2
          obtain ⟨ht', hp⟩ := hK2
          subst ht'; subst hp
          cases hAK2 with
          | inr hfail =>
            rw [hfail] at h
            dsimp only at h
            obtain ⟨h1, h2⟩ : ({ stA with log := stA.log ++ [(((simW2 T : Term), 0), Ans.failure)] } : St) = stA'
                ∧ Ans.failure = a := by simpa using h
            subst h2
            refine ⟨{ stB with log := stB.log ++ [(((simW2 T : Term), 0), Ans.failure)] }, ?_, ?_⟩
            · rw [drive_succ_key]
              simp only [hres, hBK2]
            · rw [← h1]
              exact ⟨hEq, hBK2, Or.inr hfail, hAK1⟩
          | inl hnone =>
            rw [hnone] at h
            dsimp only at h
            cases n with
            | zero => rw [drive_zero] at h; simp at h
            | succ n1 =>
              rw [drive_succ_frame] at h
              rw [show (step env src (.init (simW2 T) 0) .noAns) =
                    .request (simW1 T) 0 (.seqLWaitA .endT) from rfl] at h
              dsimp only at h
              cases n1 with
              | zero => rw [drive_zero] at h; simp at h
              | succ n2 =>
                rw [drive_succ_key] at h
                have hres1 : resolveRef env (n2 + 1) (simW1 T) = some (simW1 T) := rfl
                rw [hres1] at h
                dsimp only at h
                have hK2K1 : ((simW2 T : Term), 0) ≠ ((simW1 T : Term), (0 : Nat)) := by
                  intro he
                  rw [Prod.mk.injEq] at he
                  exact simW1_ne_simW2 T he.1.symm
                have hlook1 : memoLookup
                    (memoInsert stA.memo ((simW2 T : Term), 0) .failure)
                    ((simW1 T : Term), 0) = some .failure := by
                  rw [memoLookup_insert_ne _ _ _ _ hK2K1]
                  exact hAK1
                rw [hlook1] at h
                dsimp only at h
                rw [drive_succ_frame] at h
                simp only [step] at h
                obtain ⟨h1, h2⟩ : ({ memo := memoInsert
                                       (memoInsert stA.memo ((simW2 T : Term), 0) .failure)
                                       ((simW2 T : Term), 0) .failure,
                                     log := (stA.log ++
                                       [(((simW1 T : Term), 0), Ans.failure)]) ++
                                       [(((simW2 T : Term), 0), Ans.failure)] } : St) = stA'
                    ∧ Ans.failure = a := by simpa using h
                subst h2
                refine ⟨{ stB with log := stB.log ++ [(((simW2 T : Term), 0), Ans.failure)] }, ?_, ?_⟩
                · rw [drive_succ_key]
                  simp only [hres, hBK2]
                · rw [← h1]
                  refine ⟨?_, hBK2, Or.inr (by rw [memoLookup_insert_self]), ?_⟩
                  · intro k hk
                    rw [memoLookup_insert_ne _ _ _ _ (fun he => hk he.symm),
                      memoLookup_insert_ne _ _ _ _ (fun he => hk he.symm)]
                    exact hEq k hk
                  · rw [memoLookup_insert_ne _ _ _ _ hK2K1,
                      memoLookup_insert_ne _ _ _ _ hK2K1]
                    exact hAK1
        · -- an ordinary key: both memos agree on it
          have hsame := hEq (t', p) hK2
          cases hhit : memoLookup stA.memo (t', p) with
          | some a0 =>
            rw [hhit] at h
            dsimp only at h
            obtain ⟨h1, h2⟩ : ({ stA with log := stA.log ++ [((t', p), a0)] } : St) = stA'
                ∧ a0 = a := by simpa using h
            subst h2
            refine ⟨{ stB with log := stB.log ++ [((t', p), a0)] }, ?_, ?_⟩
            · rw [drive_succ_key]
              simp only [hres, hsame, hhit]
            · rw [← h1]
              exact ⟨hEq, hBK2, hAK2, hAK1⟩
          | none =>
            rw [hhit] at h
            dsimp only at h
            have hK1ne : ((t', p) : Key) ≠ (simW1 T, 0) := by
              intro he
              rw [he, hAK1] at hhit
              exact absurd hhit (by simp)
            cases hfr : drive env src n
                { memo := memoInsert stA.memo (t', p) .failure, log := stA.log }
                (.frame (.init t' p) .noAns) with
            | error e => rw [hfr] at h; simp at h
            | ok r2 =>
              obtain ⟨stA2, a2⟩ := r2
              rw [hfr] at h
              dsimp only at h
              obtain ⟨h1, h2⟩ : ({ memo := memoInsert stA2.memo (t', p) a2,
                                   log := stA2.log ++ [((t', p), a2)] } : St) = stA'
                  ∧ a2 = a := by simpa using h
              subst h2
              have hrelSeed : simRel T
                  { memo := memoInsert stA.memo (t', p) .failure, log := stA.log }
                  { memo := memoInsert stB.memo (t', p) .failure, log := stB.log } := by
                refine ⟨?_, ?_, ?_, ?_⟩
                · intro k hk
                  by_cases hkt : ((t', p) : Key) = k
                  · subst hkt
                    rw [memoLookup_insert_self, memoLookup_insert_self]
                  · rw [memoLookup_insert_ne _ _ _ _ hkt, memoLookup_insert_ne _ _ _ _ hkt]
                    exact hEq k hk
                · rw [memoLookup_insert_ne _ _ _ _ hK2]
                  exact hBK2
                · rw [memoLookup_insert_ne _ _ _ _ hK2]
                  exact hAK2
                · rw [memoLookup_insert_ne _ _ _ _ hK1ne]
                  exact hAK1
              obtain ⟨stB2, hB2, hrel2⟩ := ih _ _ (.frame (.init t' p) .noAns) stA2 a2 hrelSeed hfr
              obtain ⟨hEq2, hBK2b, hAK2b, hAK1b⟩ := hrel2
              refine ⟨{ memo := memoInsert stB2.memo (t', p) a2,
                        log := stB2.log ++ [((t', p), a2)] }, ?_, ?_⟩
              · rw [drive_succ_key]
                simp only [hres, hsame, hhit, hB2]
              · rw [← h1]
                refine ⟨?_, ?_, ?_, ?_⟩
                · intro k hk
                  by_cases hkt : ((t', p) : Key) = k
                  · subst hkt
                    rw [memoLookup_insert_self, memoLookup_insert_self]
                  · rw [memoLookup_insert_ne _ _ _ _ hkt, memoLookup_insert_ne _ _ _ _ hkt]
                    exact hEq2 k hk
                · rw [memoLookup_insert_ne _ _ _ _ hK2]
                  exact hBK2b
                · rw [memoLookup_insert_ne _ _ _ _ hK2]
                  exact hAK2b
                · rw [memoLookup_insert_ne _ _ _ _ hK1ne]
                  exact hAK1b

/-- Backward simulation: any evaluation over the B-side memo also runs over
the A-side memo with a little more fuel (the A side may have to evaluate the
double wrapper once, which takes three extra levels), with the same answer,
preserving the relation. -/
theorem sim_bwd (env : Env) (src : Source) (T : Term) :
    ∀ (fuel : Nat) (stA stB : St) (j : Job) (stB' : St) (a : Ans),
      simRel T stA stB →
      drive env src fuel stB j = .ok (stB', a) →
      ∃ stA', drive env src (fuel + 3) stA j = .ok (stA', a) ∧ simRel T stA' stB' := by
  intro fuel
  induction fuel with
  | zero =>
    intro stA stB j stB' a _ h
    rw [drive_zero] at h
    exact absurd h (by simp)
  | succ n ih =>
    intro stA stB j stB' a hrel h
    obtain ⟨hEq, hBK2, hAK2, hAK1⟩ := hrel
    rw [show (n + 1 + 3) = ((n + 3) + 1) from by omega]
    cases j with
    | frame fr ans =>
      rw [drive_succ_frame] at h
      cases hstep : step env src fr ans with
      | err e => simp [hstep] at h
      | done a0 =>
        simp only [hstep] at h
        obtain ⟨h1, h2⟩ : stB = stB' ∧ a0 = a := by simpa using h
        subst h1; subst h2
        refine ⟨stA, ?_, hEq, hBK2, hAK2, hAK1⟩
        rw [drive_succ_frame]
        simp only [hstep]
      | request t q k =>
        simp only [hstep] at h
        cases hkey : drive env src n stB (.key t q) with
        | error e => simp [hkey] at h
        | ok r1 =>
          obtain ⟨stB1, a1⟩ := r1
          rw [hkey] at h
          dsimp only at h
          obtain ⟨stA1, hA1, hrel1⟩ := ih stA stB (.key t q) stB1 a1 ⟨hEq, hBK2, hAK2, hAK1⟩ hkey
          obtain ⟨stA', hA2, hrel2⟩ := ih stA1 stB1 (.frame k a1) stB' a hrel1 h
          refine ⟨stA', ?_, hrel2⟩
          rw [drive_succ_frame]
          simp only [hstep, hA1]
          exact hA2
    | key t p =>
      rw [drive_succ_key] at h
      cases hres : resolveRef env (n + 1) t with
      | none => simp [hres] at h
      | some t' =>
        simp only [hres] at h
        have hres3 : resolveRef env ((n + 3) + 1) t = some t' :=
          resolveRef_mono env _ _ _ (resolveRef_mono env _ _ _ (resolveRef_mono env _ _ _ hres))
        by_cases hK2 : ((t', p) : Key) = (simW2 T, 0)
        · rw [Prod.mk.injEq] at hK2
          obtain ⟨ht', hp⟩ := hK2
          subst ht'; subst hp
          rw [hBK2] at h
          dsimp only at h
          obtain ⟨h1, h2⟩ : ({ stB with log := stB.log ++ [(((simW2 T : Term), 0), Ans.failure)] } : St) = stB'
              ∧ Ans.failure = a := by simpa using h
          subst h2
          cases hAK2 with
          | inr hfail =>
            refine ⟨{ stA with log := stA.log ++ [(((simW2 T : Term), 0), Ans.failure)] }, ?_, ?_⟩
            · rw [drive_succ_key]
              simp only [hres3, hfail]
            · rw [← h1]
              exact ⟨hEq, hBK2, Or.inr hfail, hAK1⟩
          | inl hnone =>
            have hK2K1 : ((simW2 T : Term), (0 : Nat)) ≠ ((simW1 T : Term), (0 : Nat)) := by
              intro he
              rw [Prod.mk.injEq] at he
              exact simW1_ne_simW2 T he.1.symm
            have hA : drive env src ((n + 3) + 1) stA (.key t 0) =
                .ok ({ memo := memoInsert
                         (memoInsert stA.memo ((simW2 T : Term), 0) .failure)
                         ((simW2 T : Term), 0) .failure,
                       log := (stA.log ++
                         [(((simW1 T : Term), 0), Ans.failure)]) ++
                         [(((simW2 T : Term), 0), Ans.failure)] }, .failure) := by
              rw [drive_succ_key]
              simp only [hres3, hnone]
              rw [show (n + 3) = ((n + 2) + 1) from by omega]
              rw [drive_succ_frame]
              rw [show (step env src (.init (simW2 T) 0) .noAns) =
                    .request (simW1 T) 0 (.seqLWaitA .endT) from rfl]
              dsimp only
              rw [show (n + 2) = ((n + 1) + 1) from by omega]
              rw [drive_succ_key]
              rw [show (resolveRef env ((n + 1) + 1) (simW1 T)) = some (simW1 T) from rfl]
              dsimp only
              rw [memoLookup_insert_ne _ _ _ _ hK2K1, hAK1]
              dsimp only
              rw [drive_succ_frame]
              rw [show (step env src (.seqLWaitA .endT) .failure) = .done .failure from rfl]
            refine ⟨_, hA, ?_⟩
            rw [← h1]
            refine ⟨?_, hBK2, Or.inr (by rw [memoLookup_insert_self]), ?_⟩
            · intro k hk
              rw [memoLookup_insert_ne _ _ _ _ (fun he => hk he.symm),
                memoLookup_insert_ne _ _ _ _ (fun he => hk he.symm)]
              exact hEq k hk
            · rw [memoLookup_insert_ne _ _ _ _ hK2K1,
                memoLookup_insert_ne _ _ _ _ hK2K1]
              exact hAK1
        · have hsame := hEq (t', p) hK2
          cases hhit : memoLookup stB.memo (t', p) with
          | some a0 =>
            rw [hhit] at h
            dsimp only at h
            obtain ⟨h1, h2⟩ : ({ stB with log := stB.log ++ [((t', p), a0)] } : St) = stB'
                ∧ a0 = a := by simpa using h
            subst h2
            refine ⟨{ stA with log := stA.log ++ [((t', p), a0)] }, ?_, ?_⟩
            · rw [drive_succ_key]
              simp only [hres3]
              rw [← hsame, hhit]
            · rw [← h1]
              exact ⟨hEq, hBK2, hAK2, hAK1⟩
          | none =>
            rw [hhit] at h
            dsimp only at h
            have hhitA : memoLookup stA.memo (t', p) = none := by rw [← hsame]; exact hhit
            have hK1ne : ((t', p) : Key) ≠ (simW1 T, 0) := by
              intro he
              rw [he, hAK1] at hhitA
              exact absurd hhitA (by simp)
            cases hfr : drive env src n
                { memo := memoInsert stB.memo (t', p) .failure, log := stB.log }
                (.frame (.init t' p) .noAns) with
            | error e => rw [hfr] at h; simp at h
            | ok r2 =>
              obtain ⟨stB2, a2⟩ := r2
              rw [hfr] at h
              dsimp only at h
              obtain ⟨h1, h2⟩ : ({ memo := memoInsert stB2.memo (t', p) a2,
                                   log := stB2.log ++ [((t', p), a2)] } : St) = stB'
                  ∧ a2 = a := by simpa using h
              subst h2
              have hrelSeed : simRel T
                  { memo := memoInsert stA.memo (t', p) .failure, log := stA.log }
                  { memo := memoInsert stB.memo (t', p) .failure, log := stB.log } := by
                refine ⟨?_, ?_, ?_, ?_⟩
                · intro k hk
                  by_cases hkt : ((t', p) : Key) = k
                  · subst hkt
                    rw [memoLookup_insert_self, memoLookup_insert_self]
                  · rw [memoLookup_insert_ne _ _ _ _ hkt, memoLookup_insert_ne _ _ _ _ hkt]
                    exact hEq k hk
                · rw [memoLookup_insert_ne _ _ _ _ hK2]
                  exact hBK2
                · rw [memoLookup_insert_ne _ _ _ _ hK2]
                  exact hAK2
                · rw [memoLookup_insert_ne _ _ _ _ hK1ne]
                  exact hAK1
              obtain ⟨stA2, hA2, hrel2⟩ := ih _ _ (.frame (.init t' p) .noAns) stB2 a2 hrelSeed hfr
              obtain ⟨hEq2, hBK2b, hAK2b, hAK1b⟩ := hrel2
              refine ⟨{ memo := memoInsert stA2.memo (t', p) a2,
                        log := stA2.log ++ [((t', p), a2)] }, ?_, ?_⟩
              · rw [drive_succ_key]
                simp only [hres3, hhitA, hA2]
              · rw [← h1]
                refine ⟨?_, ?_, ?_, ?_⟩
                · intro k hk
                  by_cases hkt : ((t', p) : Key) = k
                  · subst hkt
                    rw [memoLookup_insert_self, memoLookup_insert_self]
                  · rw [memoLookup_insert_ne _ _ _ _ hkt, memoLookup_insert_ne _ _ _ _ hkt]
                    exact hEq2 k hk
                · rw [memoLookup_insert_ne _ _ _ _ hK2]
                  exact hBK2b
                · rw [memoLookup_insert_ne _ _ _ _ hK2]
                  exact hAK2b
                · rw [memoLookup_insert_ne _ _ _ _ hK1ne]
                  exact hAK1b

/-- A shadowed entry is invisible to lookups. -/
theorem memoLookup_insert_shadow (m : Memo) (k : Key) (a b : Ans) (k' : Key) :
    memoLookup (memoInsert (memoInsert m k b) k a) k' =
      memoLookup (memoInsert m k a) k' := by
  by_cases hk : k = k'
  · subst hk
    rw [memoLookup_insert_self, memoLookup_insert_self]
  · rw [memoLookup_insert_ne _ _ _ _ hk, memoLookup_insert_ne _ _ _ _ hk,
      memoLookup_insert_ne _ _ _ _ hk]

/-- The `End` invariant only depends on what lookups observe. -/
theorem endInv_congr {src : Source} {m1 m2 : Memo}
    (h : ∀ k, memoLookup m1 k = memoLookup m2 k) (h2 : endInv src m2) : endInv src m1 := by
  constructor
  · intro p b hb
    rw [h] at hb
    exact h2.1 p b hb
  · intro x p q v hv
    rw [h] at hv
    exact h2.2 x p q v hv

theorem endInv_insert_other {src : Source} {m : Memo} {k : Key} {a : Ans}
    (h : endInv src m) (hne1 : k.1 ≠ Term.endT)
    (hne2 : ∀ x, k.1 ≠ Term.seqL x .endT) : endInv src (memoInsert m k a) := by
  constructor
  · intro p b hb
    rw [memoLookup_insert_ne _ _ _ _ (fun he => hne1 (by rw [he]))] at hb
    exact h.1 p b hb
  · intro x p q v hv
    rw [memoLookup_insert_ne _ _ _ _ (fun he => hne2 x (by rw [he]))] at hv
    exact h.2 x p q v hv

theorem endInv_insert_endAns {src : Source} {m : Memo} {p : Nat}
    (h : endInv src m) : endInv src (memoInsert m (.endT, p) (endAns src p)) := by
  constructor
  · intro p' b hb
    by_cases hp : ((Term.endT : Term), p) = ((Term.endT : Term), p')
    · obtain ⟨-, hp⟩ : Term.endT = Term.endT ∧ p = p' := by simpa using hp
      subst hp
      rw [memoLookup_insert_self] at hb
      simpa using hb.symm
    · rw [memoLookup_insert_ne _ _ _ _ hp] at hb
      exact h.1 p' b hb
  · intro x p' q v hv
    rw [memoLookup_insert_ne _ _ _ _ (by simp)] at hv
    exact h.2 x p' q v hv

theorem endInv_insert_leftEnd {src : Source} {m : Memo} {x : Term} {p : Nat} {a : Ans}
    (h : endInv src m) (ha : ∀ v q, a = .success v q → q = src.length) :
    endInv src (memoInsert m (.seqL x .endT, p) a) := by
  constructor
  · intro p' b hb
    rw [memoLookup_insert_ne _ _ _ _ (by simp)] at hb
    exact h.1 p' b hb
  · intro x' p' q v hv
    by_cases hk : ((Term.seqL x .endT : Term), p) = ((Term.seqL x' .endT : Term), p')
    · rw [hk, memoLookup_insert_self] at hv
      exact ha v q (by simpa using hv)
    · rw [memoLookup_insert_ne _ _ _ _ hk] at hv
      exact h.2 x' p' q v hv

/-- The `End` invariant is preserved by the driver; an evaluation resolving
to `End` returns its deterministic answer, and an evaluation resolving to
`Left(x, End)` succeeds only at the end of the source. -/
theorem drive_endInv (env : Env) (src : Source) :
    ∀ (fuel : Nat),
      (∀ (st : St) (t : Term) (p : Nat) (st' : St) (a : Ans),
        endInv src st.memo →
        drive env src fuel st (.key t p) = .ok (st', a) →
        endInv src st'.memo ∧
        (resolveRef env fuel t = some .endT → a = endAns src p) ∧
        (∀ x, resolveRef env fuel t = some (.seqL x .endT) →
          ∀ v q, a = .success v q → q = src.length)) ∧
      (∀ (st : St) (fr : Frame) (ans : Ans) (st' : St) (a : Ans),
        endInv src st.memo →
        drive env src fuel st (.frame fr ans) = .ok (st', a) →
        endInv src st'.memo) := by
  intro fuel
  induction fuel using Nat.strong_induction_on with
  | _ fuel ih =>
    cases fuel with
    | zero =>
      constructor
      · intro st t p st' a _ h
        rw [drive_zero] at h
        exact absurd h (by simp)
      · intro st fr ans st' a _ h
        rw [drive_zero] at h
        exact absurd h (by simp)
    | succ n =>
      constructor
      · intro st t p st' a hinv h
        rw [drive_succ_key] at h
        cases hres : resolveRef env (n + 1) t with
        | none => simp [hres] at h
        | some t' =>
          simp only [hres] at h
          cases hhit : memoLookup st.memo (t', p) with
          | some a0 =>
            simp only [hhit] at h
            obtain ⟨h1, h2⟩ : ({ st with log := st.log ++ [((t', p), a0)] } : St) = st'
                ∧ a0 = a := by simpa using h
            subst h2
            refine ⟨by rw [← h1]; exact hinv, ?_, ?_⟩
            · intro hT
              obtain ht' : t' = Term.endT := by simpa using hT
              subst ht'
              exact hinv.1 p a0 hhit
            · intro x hT v q hv
              obtain ht' : t' = Term.seqL x .endT := by simpa using hT
              subst ht'
              subst hv
              exact hinv.2 x p q v hhit
          | none =>
            simp only [hhit] at h
            by_cases hEndT : t' = Term.endT
            · subst hEndT
              cases n with
              | zero => rw [drive_zero] at h; simp at h
              | succ n1 =>
                rw [drive_succ_frame] at h
                rw [show (step env src (.init .endT p) .noAns) =
                      .done (endAns src p) from rfl] at h
                dsimp only at h
                obtain ⟨h1, h2⟩ : ({ memo := memoInsert
                                       (memoInsert st.memo ((Term.endT : Term), p) .failure)
                                       ((Term.endT : Term), p) (endAns src p),
                                     log := st.log ++
                                       [(((Term.endT : Term), p), endAns src p)] } : St) = st'
                    ∧ endAns src p = a := by simpa using h
                subst h2
                refine ⟨?_, fun _ => rfl, ?_⟩
                · rw [← h1]
                  exact endInv_congr (memoLookup_insert_shadow st.memo _ _ _)
                    (endInv_insert_endAns hinv)
                · intro x hT
                  simp at hT
            · by_cases hSeq : ∃ x, t' = Term.seqL x Term.endT
              · obtain ⟨x, rfl⟩ := hSeq
                have hseedInv : endInv src
                    (memoInsert st.memo ((Term.seqL x .endT : Term), p) .failure) :=
                  endInv_insert_leftEnd hinv (fun v q hv => by cases hv)
                cases n with
                | zero => rw [drive_zero] at h; simp at h
                | succ n1 =>
                  rw [drive_succ_frame] at h
                  rw [show (step env src (.init (Term.seqL x .endT) p) .noAns) =
                        .request x p (.seqLWaitA .endT) from rfl] at h
                  dsimp only at h
                  cases hkx : drive env src n1
                      { memo := memoInsert st.memo ((Term.seqL x .endT : Term), p) .failure,
                        log := st.log } (.key x p) with
                  | error e => rw [hkx] at h; simp at h
                  | ok r1 =>
                    obtain ⟨st1, a1⟩ := r1
                    rw [hkx] at h
                    dsimp only at h
                    have hinv1 := ((ih n1 (by omega)).1 _ x p st1 a1 hseedInv hkx).1
                    cases a1 with
                    | noAns =>
                      cases n1 with
                      | zero => rw [drive_zero] at h; simp at h
                      | succ n2 =>
                        rw [drive_succ_frame] at h
                        rw [show (step env src (.seqLWaitA .endT) .noAns) =
                              .err .stuck from rfl] at h
                        simp at h
                    | failure =>
                      cases n1 with
                      | zero => rw [drive_zero] at h; simp at h
                      | succ n2 =>
                        rw [drive_succ_frame] at h
                        rw [show (step env src (.seqLWaitA .endT) .failure) =
                              .done .failure from rfl] at h
                        dsimp only at h
                        obtain ⟨h1, h2⟩ : ({ memo := memoInsert st1.memo
                                               ((Term.seqL x .endT : Term), p) .failure,
                                             log := st1.log ++
                                               [(((Term.seqL x .endT : Term), p),
                                                 Ans.failure)] } : St) = st'
                            ∧ Ans.failure = a := by simpa using h
                        subst h2
                        refine ⟨?_, ?_, ?_⟩
                        · rw [← h1]
                          exact endInv_insert_leftEnd hinv1 (fun v q hv => by cases hv)
                        · intro hT
                          simp at hT
                        · intro x' hT v q hv
                          cases hv
                    | success va pa =>
                      cases n1 with
                      | zero => rw [drive_zero] at h; simp at h
                      | succ n2 =>
                        rw [drive_succ_frame] at h
                        rw [show (step env src (.seqLWaitA .endT) (.success va pa)) =
                              .request .endT pa (.seqLWaitB va) from rfl] at h
                        dsimp only at h
                        cases hke : drive env src n2 st1 (.key .endT pa) with
                        | error e => rw [hke] at h; simp at h
                        | ok r2 =>
                          obtain ⟨st2, a2⟩ := r2
                          rw [hke] at h
                          dsimp only at h
                          obtain ⟨hinv2, hendT, -⟩ :=
                            (ih n2 (by omega)).1 _ .endT pa st2 a2 hinv1 hke
                          have ha2 : a2 = endAns src pa := hendT (by cases n2 <;> rfl)
                          subst ha2
                          by_cases hpa : pa = src.length
                          · rw [show (endAns src pa) = .success .vnone pa from by
                                simp [endAns, hpa]] at h
                            cases n2 with
                            | zero => rw [drive_zero] at h; simp at h
                            | succ n3 =>
                              rw [drive_succ_frame] at h
                              rw [show (step env src (.seqLWaitB va) (.success .vnone pa)) =
                                    .done (.success va pa) from rfl] at h
                              dsimp only at h
                              obtain ⟨h1, h2⟩ : ({ memo := memoInsert st2.memo
                                                     ((Term.seqL x .endT : Term), p)
                                                     (.success va pa),
                                                   log := st2.log ++
                                                     [(((Term.seqL x .endT : Term), p),
                                                       Ans.success va pa)] } : St) = st'
                                  ∧ Ans.success va pa = a := by simpa using h
                              subst h2
                              refine ⟨?_, ?_, ?_⟩
                              · rw [← h1]
                                refine endInv_insert_leftEnd hinv2 ?_
                                intro v q hv
                                obtain ⟨-, hq⟩ : va = v ∧ pa = q := by simpa using hv
                                rw [← hq]
                                exact hpa
                              · intro hT
                                simp at hT
                              · intro x' hT v q hv
                                obtain ⟨-, hq⟩ : va = v ∧ pa = q := by simpa using hv
                                rw [← hq]
                                exact hpa
                          · rw [show (endAns src pa) = .failure from by
                                simp [endAns, hpa]] at h
                            cases n2 with
                            | zero => rw [drive_zero] at h; simp at h
                            | succ n3 =>
                              rw [drive_succ_frame] at h
                              rw [show (step env src (.seqLWaitB va) .failure) =
                                    .done .failure from rfl] at h
                              dsimp only at h
                              obtain ⟨h1, h2⟩ : ({ memo := memoInsert st2.memo
                                                     ((Term.seqL x .endT : Term), p) .failure,
                                                   log := st2.log ++
                                                     [(((Term.seqL x .endT : Term), p),
                                                       Ans.failure)] } : St) = st'
                                  ∧ Ans.failure = a := by simpa using h
                              subst h2
                              refine ⟨?_, ?_, ?_⟩
                              · rw [← h1]
                                exact endInv_insert_leftEnd hinv2 (fun v q hv => by cases hv)
                              · intro hT
                                simp at hT
                              · intro x' hT v q hv
                                cases hv
              · push_neg at hSeq
                have hseedInv : endInv src (memoInsert st.memo (t', p) .failure) :=
                  endInv_insert_other hinv hEndT hSeq
                cases hfr2 : drive env src n
                    { memo := memoInsert st.memo (t', p) .failure, log := st.log }
                    (.frame (.init t' p) .noAns) with
                | error e => rw [hfr2] at h; simp at h
                | ok r2 =>
                  obtain ⟨st2, a2⟩ := r2
                  rw [hfr2] at h
                  dsimp only at h
                  obtain ⟨h1, h2⟩ : ({ memo := memoInsert st2.memo (t', p) a2,
                                       log := st2.log ++ [((t', p), a2)] } : St) = st'
                      ∧ a2 = a := by simpa using h
                  subst h2
                  have hinv2 := (ih n (by omega)).2 _ _ _ _ _ hseedInv hfr2
                  refine ⟨?_, ?_, ?_⟩
                  · rw [← h1]
                    exact endInv_insert_other hinv2 hEndT hSeq
                  · intro hT
                    exact absurd (by simpa using hT) hEndT
                  · intro x hT v q hv
                    exact absurd (by simpa using hT) (hSeq x)
      · intro st fr ans st' a hinv h
        rw [drive_succ_frame] at h
        cases hstep : step env src fr ans with
        | err e => simp [hstep] at h
        | done a0 =>
          simp only [hstep] at h
          obtain ⟨h1, h2⟩ : st = st' ∧ a0 = a := by simpa using h
          rw [← h1]
          exact hinv
        | request t q k =>
          simp only [hstep] at h
          cases hkey : drive env src n st (.key t q) with
          | error e => simp [hkey] at h
          | ok r1 =>
            obtain ⟨st1, a1⟩ := r1
            rw [hkey] at h
            dsimp only at h
            have hinv1 := ((ih n (by omega)).1 _ t q st1 a1 hinv hkey).1
            exact (ih n (by omega)).2 _ _ _ _ _ hinv1 h

/-- Composition: a fresh key whose suspension completes yields the recorded
answer. -/
theorem drive_key_miss_ok (env : Env) (src : Source) (fuel : Nat) (st : St)
    (t t' : Term) (p : Nat) (st2 : St) (a : Ans)
    (hres : resolveRef env (fuel + 1) t = some t')
    (hmiss : memoLookup st.memo (t', p) = none)
    (hbody : drive env src fuel { memo := memoInsert st.memo (t', p) .failure, log := st.log }
        (.frame (.init t' p) .noAns) = .ok (st2, a)) :
    drive env src (fuel + 1) st (.key t p) =
      .ok ({ memo := memoInsert st2.memo (t', p) a, log := st2.log ++ [((t', p), a)] }, a) := by
  rw [drive_key_miss env src fuel st t t' p hres hmiss, hbody]

/-- Composition: a frame that issues a request completes like its
continuation. -/
theorem drive_frame_request_ok (env : Env) (src : Source) (fuel : Nat) (st : St)
    (fr : Frame) (ans : Ans) (t : Term) (p : Nat) (k : Frame) (st1 : St) (a1 : Ans)
    (st' : St) (a : Ans)
    (hstep : step env src fr ans = .request t p k)
    (hkey : drive env src fuel st (.key t p) = .ok (st1, a1))
    (hcont : drive env src fuel st1 (.frame k a1) = .ok (st', a)) :
    drive env src (fuel + 1) st (.frame fr ans) = .ok (st', a) := by
  rw [drive_succ_frame, hstep]
  dsimp only
  rw [hkey]
  exact hcont

/-- Composition: a frame whose step finishes returns at once. -/
theorem drive_frame_done (env : Env) (src : Source) (fuel : Nat) (st : St)
    (fr : Frame) (ans : Ans) (a : Ans) (hstep : step env src fr ans = .done a) :
    drive env src (fuel + 1) st (.frame fr ans) = .ok (st, a) := by
  rw [drive_succ_frame, hstep]

/-- The double-wrapper key differs from the single-wrapper key. -/
theorem simW2_key_ne (T : Term) (p : Nat) :
    ((Term.seqL (Term.seqL T Term.endT) Term.endT : Term), p) ≠
      ((Term.seqL T Term.endT : Term), p) := by
  intro hh
  exact simW1_ne_simW2 T (congrArg Prod.fst hh).symm

/-- The simulation relation holds between the two freshly seeded parsers. -/
theorem simRel_seed (T : Term) :
    simRel T
      { memo := memoInsert ([] : Memo) ((Term.seqL T .endT : Term), 0) .failure, log := [] }
      { memo := memoInsert
          (memoInsert ([] : Memo) ((Term.seqL (Term.seqL T Term.endT) Term.endT : Term), 0)
            .failure)
          ((Term.seqL T .endT : Term), 0) .failure, log := [] } := by
  refine ⟨?_, ?_, Or.inl ?_, ?_⟩
  · intro k hk
    simp only [simW2] at hk
    dsimp only
    by_cases hk1 : k = ((Term.seqL T .endT : Term), 0)
    · subst hk1
      rw [memoLookup_insert_self, memoLookup_insert_self]
    · rw [memoLookup_insert_ne _ _ _ _ (fun hh => hk1 hh.symm),
        memoLookup_insert_ne _ _ _ _ (fun hh => hk hh.symm),
        memoLookup_insert_ne _ _ _ _ (fun hh => hk1 hh.symm)]
  · dsimp only
    simp only [simW2]
    rw [memoLookup_insert_ne _ _ _ _ (Ne.symm (simW2_key_ne T 0))]
    exact memoLookup_insert_self _ _ _
  · dsimp only
    simp only [simW2]
    rw [memoLookup_insert_ne _ _ _ _ (Ne.symm (simW2_key_ne T 0))]
    rfl
  · dsimp only
    simp only [simW1]
    exact memoLookup_insert_self _ _ _

/-- Forward wrapping: an answer of the driver for `Left(T, End)` on a fresh
parser is also, with five more levels of fuel, the answer for
`Left(Left(T, End), End)` on a fresh parser; moreover a successful answer
ends exactly at the end of the source. -/
theorem runRaw_w1_w2 (env : Env) (src : Source) (T : Term) (f : Nat) (stA : St) (a : Ans)
    (h : runRaw env src (f + 1) (simW1 T) = .ok (stA, a)) :
    (∀ v p, a = .success v p → p = src.length) ∧
    ∃ stB, runRaw env src (f + 6) (simW2 T) = .ok (stB, a) := by
  have hinv0 : endInv src ([] : Memo) :=
    ⟨fun p b hb => by simp [memoLookup] at hb, fun x p q v hv => by simp [memoLookup] at hv⟩
  have hlen : ∀ v p, a = .success v p → p = src.length := fun v p hv =>
    ((drive_endInv env src (f + 1)).1 { memo := [], log := [] } (simW1 T) 0 stA a hinv0 h).2.2
      T rfl v p hv
  have hnn : a ≠ .noAns :=
    (drive_no_noAns env src (f + 1) { memo := [], log := [] } (.key (simW1 T) 0) stA a
      (fun k => by simp [memoLookup]) h).2
  refine ⟨hlen, ?_⟩
  rw [runRaw, drive_succ_key] at h
  rw [show resolveRef env (f + 1) (simW1 T) = some (.seqL T .endT) from rfl] at h
  dsimp only at h
  rw [show memoLookup ([] : Memo) ((Term.seqL T .endT : Term), 0) = none from rfl] at h
  dsimp only at h
  cases hbody : drive env src f
      { memo := memoInsert ([] : Memo) ((Term.seqL T .endT : Term), 0) .failure, log := [] }
      (.frame (.init (.seqL T .endT) 0) .noAns) with
  | error e => rw [hbody] at h; simp at h
  | ok r =>
    obtain ⟨stA2, aB⟩ := r
    rw [hbody] at h
    dsimp only at h
    obtain ⟨-, h2⟩ : _ ∧ aB = a := by simpa using h
    subst h2
    have hbody2 := drive_mono_le env src (show f ≤ f + 1 + 1 by omega) hbody
    have hrel := simRel_seed T
    obtain ⟨stB2, hB, -⟩ := sim_fwd env src T (f + 1 + 1) _ _ _ _ _ hrel hbody2
    have hinvB1 : endInv src
        (memoInsert
          (memoInsert ([] : Memo) ((Term.seqL (Term.seqL T Term.endT) Term.endT : Term), 0)
            .failure)
          ((Term.seqL T .endT : Term), 0) .failure) :=
      endInv_insert_leftEnd (endInv_insert_leftEnd hinv0 (fun v q hv => by cases hv))
        (fun v q hv => by cases hv)
    have hinvB2 : endInv src stB2.memo := (drive_endInv env src (f + 1 + 1)).2 _ _ _ _ _ hinvB1 hB
    have hmissB : memoLookup
        (memoInsert ([] : Memo) ((Term.seqL (Term.seqL T Term.endT) Term.endT : Term), 0)
          .failure)
        ((Term.seqL T Term.endT : Term), 0) = none := by
      rw [memoLookup_insert_ne _ _ _ _ (simW2_key_ne T 0)]
      rfl
    have hKey1 := drive_key_miss_ok env src (f + 1 + 1)
      { memo := memoInsert ([] : Memo)
          ((Term.seqL (Term.seqL T Term.endT) Term.endT : Term), 0) .failure, log := [] }
      (.seqL T .endT) (.seqL T .endT) 0 stB2 aB rfl hmissB hB
    have hinvB2' : endInv src (memoInsert stB2.memo ((Term.seqL T Term.endT : Term), 0) aB) :=
      endInv_insert_leftEnd hinvB2 (fun v q hv => hlen v q hv)
    have hContA : ∃ stB3 : St,
        drive env src (f + 1 + 1 + 1)
          { memo := memoInsert stB2.memo ((Term.seqL T Term.endT : Term), 0) aB,
            log := stB2.log ++ [(((Term.seqL T Term.endT : Term), 0), aB)] }
          (.frame (.seqLWaitA .endT) aB) = .ok (stB3, aB) := by
      cases haB : aB with
      | noAns => exact absurd haB hnn
      | failure =>
        exact ⟨_, drive_frame_done env src (f + 1 + 1) _ _ _ _ rfl⟩
      | success v p =>
        have hp : p = src.length := hlen v p haB
        have hKeyE : ∃ stE : St,
            drive env src (f + 1 + 1)
              { memo := memoInsert stB2.memo ((Term.seqL T Term.endT : Term), 0)
                  (.success v p),
                log := stB2.log ++ [(((Term.seqL T Term.endT : Term), 0), Ans.success v p)] }
              (.key .endT p) = .ok (stE, .success .vnone p) := by
          cases hET : memoLookup (memoInsert stB2.memo ((Term.seqL T Term.endT : Term), 0)
              (.success v p)) ((Term.endT : Term), p) with
          | some a2 =>
            have ha2 : a2 = endAns src p := by
              refine hinvB2'.1 p a2 ?_
              rw [haB]
              exact hET
            have hhit := drive_key_hit env src (f + 1)
              { memo := memoInsert stB2.memo ((Term.seqL T Term.endT : Term), 0)
                  (.success v p),
                log := stB2.log ++ [(((Term.seqL T Term.endT : Term), 0), Ans.success v p)] }
              Term.endT Term.endT p a2 rfl hET
            rw [ha2, show endAns src p = Ans.success Val.vnone p from by simp [endAns, hp]]
              at hhit
            exact ⟨_, hhit⟩
          | none =>
            have hdone := drive_frame_done env src f
              { memo := memoInsert (memoInsert stB2.memo
                  ((Term.seqL T Term.endT : Term), 0) (.success v p))
                  ((Term.endT : Term), p) .failure,
                log := stB2.log ++ [(((Term.seqL T Term.endT : Term), 0), Ans.success v p)] }
              (.init .endT p) .noAns (endAns src p) rfl
            have hk := drive_key_miss_ok env src (f + 1)
              { memo := memoInsert stB2.memo ((Term.seqL T Term.endT : Term), 0)
                  (.success v p),
                log := stB2.log ++ [(((Term.seqL T Term.endT : Term), 0), Ans.success v p)] }
              Term.endT Term.endT p _ (endAns src p) rfl hET hdone
            rw [show endAns src p = Ans.success Val.vnone p from by simp [endAns, hp]] at hk
            exact ⟨_, hk⟩
        obtain ⟨stE, hKeyE⟩ := hKeyE
        refine ⟨stE, ?_⟩
        refine drive_frame_request_ok env src (f + 1 + 1) _ _ _ .endT p (.seqLWaitB v) stE
          (.success .vnone p) stE (.success v p) rfl hKeyE ?_
        exact drive_frame_done env src (f + 1) _ _ _ _ rfl
    obtain ⟨stB3, hContA⟩ := hContA
    have hOuter := drive_frame_request_ok env src (f + 1 + 1 + 1)
      { memo := memoInsert ([] : Memo)
          ((Term.seqL (Term.seqL T Term.endT) Term.endT : Term), 0) .failure, log := [] }
      (.init (Term.seqL (Term.seqL T Term.endT) Term.endT) 0) .noAns
      (.seqL T .endT) 0 (.seqLWaitA .endT) _ aB stB3 aB rfl hKey1 hContA
    have hKey2 := drive_key_miss_ok env src (f + 1 + 1 + 1 + 1)
      { memo := ([] : Memo), log := [] } (simW2 T)
      (Term.seqL (Term.seqL T Term.endT) Term.endT) 0 stB3 aB rfl rfl hOuter
    exact ⟨_, drive_mono_le env src (show f + 1 + 1 + 1 + 1 + 1 ≤ f + 6 by omega) hKey2⟩

/-- Backward wrapping: an answer of the driver for `Left(Left(T, End), End)`
on a fresh parser is also, for some fuel, the answer of the driver for
`Left(T, End)` on a fresh parser. -/
theorem runRaw_w2_w1 (env : Env) (src : Source) (T : Term) (fuel : Nat) (stB : St) (a : Ans)
    (h : runRaw env src fuel (simW2 T) = .ok (stB, a)) :
    ∃ g stA, runRaw env src g (simW1 T) = .ok (stA, a) := by
  have hinv0 : endInv src ([] : Memo) :=
    ⟨fun p b hb => by simp [memoLookup] at hb, fun x p q v hv => by simp [memoLookup] at hv⟩
  cases fuel with
  | zero => rw [runRaw, drive_zero] at h; exact absurd h (by simp)
  | succ F =>
    rw [runRaw, drive_succ_key] at h
    rw [show resolveRef env (F + 1) (simW2 T) =
          some (Term.seqL (Term.seqL T Term.endT) Term.endT) from rfl] at h
    dsimp only at h
    rw [show memoLookup ([] : Memo)
          ((Term.seqL (Term.seqL T Term.endT) Term.endT : Term), 0) = none from rfl] at h
    dsimp only at h
    cases F with
    | zero => rw [drive_zero] at h; simp at h
    | succ F1 =>
      rw [drive_succ_frame] at h
      rw [show step env src (.init (Term.seqL (Term.seqL T Term.endT) Term.endT) 0) .noAns =
            .request (Term.seqL T .endT) 0 (.seqLWaitA .endT) from rfl] at h
      dsimp only at h
      cases F1 with
      | zero => rw [drive_zero] at h; simp at h
      | succ F2 =>
        cases hKey1 : drive env src (F2 + 1)
            { memo := memoInsert ([] : Memo)
                ((Term.seqL (Term.seqL T Term.endT) Term.endT : Term), 0) .failure, log := [] }
            (.key (Term.seqL T Term.endT) 0) with
        | error e => rw [hKey1] at h; simp at h
        | ok r1 =>
          obtain ⟨stB2p, a1⟩ := r1
          rw [hKey1] at h
          dsimp only at h
          have hinvB0 : endInv src (memoInsert ([] : Memo)
              ((Term.seqL (Term.seqL T Term.endT) Term.endT : Term), 0) (.failure : Ans)) :=
            endInv_insert_leftEnd hinv0 (fun v q hv => by cases hv)
          have hlen1 : ∀ v p, a1 = .success v p → p = src.length := fun v p hv =>
            ((drive_endInv env src (F2 + 1)).1 _ (Term.seqL T Term.endT) 0 stB2p a1 hinvB0
              hKey1).2.2 T rfl v p hv
          -- invert the inner key to expose the body run
          rw [drive_succ_key] at hKey1
          rw [show resolveRef env (F2 + 1) (Term.seqL T Term.endT) =
                some (Term.seqL T Term.endT) from rfl] at hKey1
          dsimp only at hKey1
          rw [show memoLookup
                (memoInsert ([] : Memo)
                  ((Term.seqL (Term.seqL T Term.endT) Term.endT : Term), 0) .failure)
                ((Term.seqL T Term.endT : Term), 0) = none from by
              rw [memoLookup_insert_ne _ _ _ _ (simW2_key_ne T 0)]; rfl] at hKey1
          dsimp only at hKey1
          cases hBodyB : drive env src F2
              { memo := memoInsert
                  (memoInsert ([] : Memo)
                    ((Term.seqL (Term.seqL T Term.endT) Term.endT : Term), 0) .failure)
                  ((Term.seqL T Term.endT : Term), 0) .failure, log := [] }
              (.frame (.init (Term.seqL T Term.endT) 0) .noAns) with
          | error e => rw [hBodyB] at hKey1; simp at hKey1
          | ok r2 =>
            obtain ⟨stB2, a1'⟩ := r2
            rw [hBodyB] at hKey1
            dsimp only at hKey1
            obtain ⟨h1, h2⟩ : ({ memo := memoInsert stB2.memo
                                     ((Term.seqL T Term.endT : Term), 0) a1',
                                   log := stB2.log ++
                                     [(((Term.seqL T Term.endT : Term), 0), a1')] } : St) = stB2p
                ∧ a1' = a1 := by simpa using hKey1
            subst h2
            obtain ⟨stA2, hAbody, -⟩ :=
              sim_bwd env src T F2 _ _ _ _ _ (simRel_seed T) hBodyB
            have hAKey := drive_key_miss_ok env src (F2 + 3)
              { memo := ([] : Memo), log := [] } (simW1 T) (Term.seqL T Term.endT) 0 stA2 a1'
              rfl rfl hAbody
            have hinvB2 : endInv src stB2.memo :=
              (drive_endInv env src F2).2 _ _ _ _ _
                (endInv_insert_leftEnd hinvB0 (fun v q hv => by cases hv)) hBodyB
            cases a1' with
            | noAns =>
              rw [drive_succ_frame] at h
              rw [show step env src (.seqLWaitA .endT) .noAns = .err .stuck from rfl] at h
              simp at h
            | failure =>
              rw [drive_succ_frame] at h
              rw [show step env src (.seqLWaitA .endT) .failure = .done .failure from rfl] at h
              dsimp only at h
              obtain ⟨-, h4⟩ : _ ∧ Ans.failure = a := by simpa using h
              subst h4
              exact ⟨F2 + 3 + 1, _, hAKey⟩
            | success v p =>
              have hp : p = src.length := hlen1 v p rfl
              rw [drive_succ_frame] at h
              rw [show step env src (.seqLWaitA .endT) (.success v p) =
                    .request .endT p (.seqLWaitB v) from rfl] at h
              dsimp only at h
              rw [← h1] at h
              cases hKeyE : drive env src F2
                  { memo := memoInsert stB2.memo ((Term.seqL T Term.endT : Term), 0)
                      (.success v p),
                    log := stB2.log ++
                      [(((Term.seqL T Term.endT : Term), 0), Ans.success v p)] }
                  (.key Term.endT p) with
              | error e => rw [hKeyE] at h; simp at h
              | ok r3 =>
                obtain ⟨stE, a2⟩ := r3
                rw [hKeyE] at h
                dsimp only at h
                have hinvB2' : endInv src (memoInsert stB2.memo
                    ((Term.seqL T Term.endT : Term), 0) (.success v p : Ans)) :=
                  endInv_insert_leftEnd hinvB2 (fun v' q hv => by
                    obtain ⟨-, hq⟩ : v = v' ∧ p = q := by simpa using hv
                    rw [← hq]; exact hp)
                have ha2 : a2 = endAns src p :=
                  ((drive_endInv env src F2).1 _ Term.endT p stE a2 hinvB2' hKeyE).2.1
                    (by cases F2 <;> rfl)
                rw [ha2, show endAns src p = Ans.success Val.vnone p from by
                  simp [endAns, hp]] at h
                cases F2 with
                | zero => rw [drive_zero] at hKeyE; simp at hKeyE
                | succ F3 =>
                  rw [drive_succ_frame] at h
                  rw [show step env src (.seqLWaitB v) (.success .vnone p) =
                        .done (.success v p) from rfl] at h
                  dsimp only at h
                  obtain ⟨-, h4⟩ : _ ∧ Ans.success v p = a := by simpa using h
                  subst h4
                  exact ⟨F3 + 1 + 3 + 1, _, hAKey⟩

/-! ## Claims -/

/-- C1: when the driver starts a term `T` at position `p` (after unwrapping
forward references), (i) if the memo already contains the key `(T, p)` it
returns the stored result, leaving the memo unchanged and creating no new
suspension; (ii) otherwise it stores `FAILURE` under `(T, p)` and only then
runs the fresh suspension, recording its answer afterwards; (iii) hence a
re-entrant request for the same `(term, position)` pair issued while that
evaluation is in progress (the seed still in the memo) receives `FAILURE`. -/
theorem claim1_start_memoization (env : Env) (src : Source) (fuel : Nat) (st : St)
    (t t' : Term) (p : Nat)
    (hres : resolveRef env (fuel + 1) t = some t') :
    (∀ a, memoLookup st.memo (t', p) = some a →
      drive env src (fuel + 1) st (.key t p) =
        .ok ({ st with log := st.log ++ [((t', p), a)] }, a)) ∧
    (memoLookup st.memo (t', p) = none →
      drive env src (fuel + 1) st (.key t p) =
        match drive env src fuel
                { memo := memoInsert st.memo (t', p) .failure, log := st.log }
                (.frame (.init t' p) .noAns) with
        | .error e => .error e
        | .ok (st2, a) =>
          .ok ({ memo := memoInsert st2.memo (t', p) a, log := st2.log ++ [((t', p), a)] }, a)) ∧
    (∀ st1 : St, memoLookup st1.memo (t', p) = some .failure →
      drive env src (fuel + 1) st1 (.key t p) =
        .ok ({ st1 with log := st1.log ++ [((t', p), .failure)] }, .failure)) := by
  refine ⟨fun a ha => drive_key_hit env src fuel st t t' p a hres ha,
          fun hm => drive_key_miss env src fuel st t t' p hres hm,
          fun st1 h1 => drive_key_hit env src fuel st1 t t' p .failure hres h1⟩

/-- Witness for C1 at a concrete input: a memo seeded with `FAILURE` for
`(nothing, 0)` answers a re-entrant request with `FAILURE`. -/
theorem claim1_start_memoization_witness :
    drive emptyEnv (.chars []) 1 ⟨[((.nothing, 0), .failure)], []⟩ (.key .nothing 0) =
      .ok (⟨[((.nothing, 0), .failure)], [((.nothing, 0), .failure)]⟩, .failure) :=
  (claim1_start_memoization emptyEnv (.chars []) 0 ⟨[((.nothing, 0), .failure)], []⟩
    .nothing .nothing 0 rfl).2.2 ⟨[((.nothing, 0), .failure)], []⟩ rfl

/-- C3 (counterexample): memoization is *not* observationally transparent.
In the left-recursive grammar `g = Or(Left(g, "b"), "a")` over the source
"ab", the pair `(g, 0)` is answered twice during the single parse: the
re-entrant request receives the tentative `FAILURE` seed while the completed
evaluation stores (and returns) a success, so two evaluations of the same
pair return different results and a read may see a non-definitive entry. -/
theorem claim3_counterexample : ¬ transparentRun lrEnv (.chars ['a', 'b']) 30 (.ref "g") := by
  intro h
  have hlog : runLog lrEnv (.chars ['a', 'b']) 30 (.ref "g") =
      some [((lrTerm, 0), .failure),
            ((.seqL (.ref "g") (.strlit "b"), 0), .failure),
            ((.strlit "a", 0), .success (.vstr "a") 1),
            ((lrTerm, 0), .success (.vstr "a") 1)] := rfl
  have h2 := h _ hlog (lrTerm, 0) .failure (.success (.vstr "a") 1)
    (by simp) (by simp)
  exact absurd h2 (by simp)

/-- C3 (amended): memoization is transparent for completed entries: a request
for a pair whose memo entry exists returns exactly the stored answer with
the memo unchanged, and the driver never modifies an entry once written
(entries are only added, or written once when the pair's own evaluation
completes); in particular all re-entrant requests during a pair's evaluation
uniformly receive the tentative `FAILURE`, and all requests after completion
uniformly receive the definitive result. -/
theorem claim3_amended_memo_definitive (env : Env) (src : Source) :
    (∀ (fuel : Nat) (st : St) (t t' : Term) (p : Nat) (a : Ans),
      resolveRef env (fuel + 1) t = some t' →
      memoLookup st.memo (t', p) = some a →
      drive env src (fuel + 1) st (.key t p) =
        .ok ({ st with log := st.log ++ [((t', p), a)] }, a)) ∧
    (∀ (fuel : Nat) (st : St) (j : Job) (st' : St) (a : Ans),
      drive env src fuel st j = .ok (st', a) →
      ∀ (k : Key) (b : Ans), memoLookup st.memo k = some b → memoLookup st'.memo k = some b) :=
  ⟨fun fuel st t t' p a hres ha => drive_key_hit env src fuel st t t' p a hres ha,
   fun fuel st j st' a h k b hk => drive_preserves_memo env src fuel st j st' a h k b hk⟩

/-- Witness for the amended C3 at a concrete input: after the left-recursive
run completes, the stored entry for `(g, 0)` is the definitive success, and a
further request returns exactly it. -/
theorem claim3_amended_memo_definitive_witness :
    ∃ st : St, runRaw lrEnv (.chars ['a', 'b']) 30 (.ref "g") = .ok (st, .success (.vstr "a") 1) ∧
      drive lrEnv (.chars ['a', 'b']) 1 st (.key (.ref "g") 0) =
        .ok ({ st with log := st.log ++ [((lrTerm, 0), .success (.vstr "a") 1)] },
             .success (.vstr "a") 1) := by
  refine ⟨_, rfl, ?_⟩
  exact (claim3_amended_memo_definitive lrEnv (.chars ['a', 'b'])).1 0 _ (.ref "g") lrTerm 0
    (.success (.vstr "a") 1) rfl rfl

/-- The last element of a nonempty list equals `getLastD` of its tail with
its head as default. -/
theorem getLast_cons_eq_getLastD {α : Type} (a : α) (l : List α) :
    (a :: l).getLast (by simp) = l.getLastD a := by
  induction l generalizing a with
  | nil => rfl
  | cons b bs ih =>
    rw [List.getLast_cons (by simp), List.getLastD_cons]
    exact ih b

/-- C6: parsing a `LeftAssoc` (resp. `RightAssoc`) struct is equivalent to
parsing the compiled delegate `ReduceLeft(first, middles, last, build)`
(resp. `ReduceRight`): the delegate the driver constructs is exactly the
spec's delegate, the struct's suspension behaves step-for-step as the
delegate's suspension, and the build writes the field names in declaration
order from `(left, op_values…, right)`. -/
theorem claim6_assoc_delegate (env : Env) (src : Source) (cls : String)
    (fields : List (String × Term)) (hne : fields ≠ [])
    (hs : env.structs cls = some fields) :
    (delegateOf env true cls = specAssocDelegate true cls fields) ∧
    (delegateOf env false cls = specAssocDelegate false cls fields) ∧
    (∀ (p : Nat) (ans : Ans) (d : Term), specAssocDelegate true cls fields = some d →
      step env src (.init (.lassoc cls) p) ans = step env src (.init d p) ans) ∧
    (∀ (p : Nat) (ans : Ans) (d : Term), specAssocDelegate false cls fields = some d →
      step env src (.init (.rassoc cls) p) ans = step env src (.init d p) ans) ∧
    (∀ (l r : Val) (ops : List Val),
      applyBuild env (.structB cls) l ops r = specAssocBuild cls (fields.map Prod.fst) l ops r) := by
  obtain ⟨f0, rest⟩ : ∃ f0 rest, fields = f0 :: rest := by
    cases fields with
    | nil => exact absurd rfl hne
    | cons f0 rest => exact ⟨f0, rest, rfl⟩
  obtain ⟨rest, rfl⟩ := rest
  have hdel : ∀ b, delegateOf env b cls = specAssocDelegate b cls (f0 :: rest) := by
    intro b
    simp only [delegateOf, hs, specAssocDelegate, getLast_cons_eq_getLastD, List.drop_one,
      List.tail_cons]
  refine ⟨hdel true, hdel false, ?_, ?_, ?_⟩
  · intro p ans d hd
    cases ans with
    | noAns =>
      have hdv : delegateOf env true cls = some d := by rw [hdel true, hd]
      simp [specAssocDelegate] at hd
      subst hd
      simp only [step] at hdv ⊢
      simp [hdv]
    | failure => rfl
    | success v q => rfl
  · intro p ans d hd
    cases ans with
    | noAns =>
      have hdv : delegateOf env false cls = some d := by rw [hdel false, hd]
      simp [specAssocDelegate] at hd
      subst hd
      simp only [step] at hdv ⊢
      simp [hdv]
    | failure => rfl
    | success v q => rfl
  · intro l r ops
    simp only [applyBuild, specAssocBuild, hs, Option.getD_some]

/-- Witness for C6 at a concrete input: the `Dot` left-associative struct
with fields `left`, `op`, `right`. -/
theorem claim6_assoc_delegate_witness :
    delegateOf ⟨fun _ => none,
        fun c => if c = "Dot" then
          some [("left", .strlit "a"), ("op", .strlit "."), ("right", .strlit "a")] else none⟩
      true "Dot" =
      specAssocDelegate true "Dot"
        [("left", .strlit "a"), ("op", .strlit "."), ("right", .strlit "a")] :=
  (claim6_assoc_delegate ⟨fun _ => none,
      fun c => if c = "Dot" then
        some [("left", .strlit "a"), ("op", .strlit "."), ("right", .strlit "a")] else none⟩
    (.chars ['a']) "Dot" [("left", .strlit "a"), ("op", .strlit "."), ("right", .strlit "a")]
    (by simp) rfl).1

/-- C7: on a token (non-string) source, a string-literal term `v` at
position `p` succeeds exactly when `p < length` and `source[p].content == v`,
in which case it yields `(v, p + 1)`, consuming one token; and it fails
(rather than erring) when `p` equals the source length. -/
theorem claim7_token_literal (env : Env) (st : St) (fuel : Nat)
    (es : List Elem) (v : String) (p : Nat)
    (hmiss : memoLookup st.memo (.strlit v, p) = none) :
    (∀ (h : p < es.length), (es.get ⟨p, h⟩).contentAttr = some v →
      drive env (.toks es) (fuel + 2) st (.key (.strlit v) p) =
        .ok ({ memo := memoInsert (memoInsert st.memo (.strlit v, p) .failure)
                         (.strlit v, p) (.success (.vstr v) (p + 1)),
               log := st.log ++ [((.strlit v, p), .success (.vstr v) (p + 1))] },
             .success (.vstr v) (p + 1))) ∧
    (∀ (h : p < es.length) (c : String), (es.get ⟨p, h⟩).contentAttr = some c → c ≠ v →
      drive env (.toks es) (fuel + 2) st (.key (.strlit v) p) =
        .ok ({ memo := memoInsert (memoInsert st.memo (.strlit v, p) .failure)
                         (.strlit v, p) .failure,
               log := st.log ++ [((.strlit v, p), .failure)] }, .failure)) ∧
    (p = es.length →
      drive env (.toks es) (fuel + 2) st (.key (.strlit v) p) =
        .ok ({ memo := memoInsert (memoInsert st.memo (.strlit v, p) .failure)
                         (.strlit v, p) .failure,
               log := st.log ++ [((.strlit v, p), .failure)] }, .failure)) := by
  refine ⟨?_, ?_, ?_⟩
  · intro h hc
    rw [show fuel + 2 = (fuel + 1) + 1 from rfl, drive_succ_key]
    simp only [resolveRef, hmiss]
    rw [drive_succ_frame]
    simp only [step, dif_pos h, hc]
    try simp
  · intro h c hc hne
    rw [show fuel + 2 = (fuel + 1) + 1 from rfl, drive_succ_key]
    simp only [resolveRef, hmiss]
    rw [drive_succ_frame]
    simp only [step, dif_pos h, hc]
    try simp [hne]
  · intro hp
    rw [show fuel + 2 = (fuel + 1) + 1 from rfl, drive_succ_key]
    simp only [resolveRef, hmiss]
    rw [drive_succ_frame]
    simp only [step, dif_neg (by omega : ¬ p < es.length)]
    try simp

/-- Witness for C7 at a concrete input: the literal "x" matches the single
token with content "x", consuming it. -/
theorem claim7_token_literal_witness :
    drive emptyEnv (.toks [.etok (some "x")]) 2 ⟨[], []⟩ (.key (.strlit "x") 0) =
      .ok ({ memo := memoInsert (memoInsert [] (.strlit "x", 0) .failure)
                       (.strlit "x", 0) (.success (.vstr "x") 1),
             log := [] ++ [((.strlit "x", 0), .success (.vstr "x") 1)] },
           .success (.vstr "x") 1) :=
  (claim7_token_literal emptyEnv ⟨[], []⟩ 0 [.etok (some "x")] "x" 0 rfl).1
    (by decide) rfl

/-- C8: on every source kind and at every position, the absent term (Python
`None`) succeeds without consuming input and yields the value `None`,
behaving exactly as `Return(None)` does; `Literal(None)`, by contrast,
consumes the matching `None` input element, so matching such an element
requires writing `Literal(None)` explicitly. -/
theorem claim8_none_term (env : Env) (src : Source) (st : St) (fuel : Nat) (p : Nat) :
    (memoLookup st.memo (.nothing, p) = none →
      drive env src (fuel + 2) st (.key .nothing p) =
        .ok ({ memo := memoInsert (memoInsert st.memo (.nothing, p) .failure)
                         (.nothing, p) (.success .vnone p),
               log := st.log ++ [((.nothing, p), .success .vnone p)] },
             .success .vnone p)) ∧
    (memoLookup st.memo (.retNone, p) = none →
      drive env src (fuel + 2) st (.key .retNone p) =
        .ok ({ memo := memoInsert (memoInsert st.memo (.retNone, p) .failure)
                         (.retNone, p) (.success .vnone p),
               log := st.log ++ [((.retNone, p), .success .vnone p)] },
             .success .vnone p)) ∧
    (∀ (es : List Elem) (hp : p < es.length), es.get ⟨p, hp⟩ = .enone →
      memoLookup st.memo (.litNone, p) = none →
      drive env (.toks es) (fuel + 2) st (.key .litNone p) =
        .ok ({ memo := memoInsert (memoInsert st.memo (.litNone, p) .failure)
                         (.litNone, p) (.success .vnone (p + 1)),
               log := st.log ++ [((.litNone, p), .success .vnone (p + 1))] },
             .success .vnone (p + 1))) := by
  refine ⟨?_, ?_, ?_⟩
  · intro hmiss
    rw [show fuel + 2 = (fuel + 1) + 1 from rfl, drive_succ_key]
    simp only [resolveRef, hmiss]
    rw [drive_succ_frame]
    simp only [step]
  · intro hmiss
    rw [show fuel + 2 = (fuel + 1) + 1 from rfl, drive_succ_key]
    simp only [resolveRef, hmiss]
    rw [drive_succ_frame]
    simp only [step]
  · intro es hp he hmiss
    rw [show fuel + 2 = (fuel + 1) + 1 from rfl, drive_succ_key]
    simp only [resolveRef, hmiss]
    rw [drive_succ_frame]
    simp only [step, dif_pos hp, he]
    try simp

/-- Witness for C8 at a concrete input: over the token source `[None]`, the
absent term succeeds at 0 without consuming, while `Literal(None)` consumes
the `None` element. -/
theorem claim8_none_term_witness :
    drive emptyEnv (.toks [.enone]) 2 ⟨[], []⟩ (.key .nothing 0) =
      .ok ({ memo := memoInsert (memoInsert [] (.nothing, 0) .failure)
                       (.nothing, 0) (.success .vnone 0),
             log := [] ++ [((.nothing, 0), .success .vnone 0)] }, .success .vnone 0) ∧
    drive emptyEnv (.toks [.enone]) 2 ⟨[], []⟩ (.key .litNone 0) =
      .ok ({ memo := memoInsert (memoInsert [] (.litNone, 0) .failure)
                       (.litNone, 0) (.success .vnone 1),
             log := [] ++ [((.litNone, 0), .success .vnone 1)] }, .success .vnone 1) :=
  ⟨(claim8_none_term emptyEnv (.toks [.enone]) ⟨[], []⟩ 0 0).1 rfl,
   (claim8_none_term emptyEnv (.toks [.enone]) ⟨[], []⟩ 0 0).2.2 [.enone] (by decide) rfl rfl⟩

/-- C10: on a token (non-string) source, evaluating a string-literal term at
an in-bounds position whose element has no `content` attribute raises an
`AttributeError` that escapes `parse` / `parse_prefix` — it is a Python
exception distinct from the `ParseError` raised on parse failure, not a
parse failure. -/
theorem claim10_missing_content_attr (env : Env) (st : St) (fuel : Nat)
    (es : List Elem) (v : String) (p : Nat)
    (h : p < es.length) (hc : (es.get ⟨p, h⟩).contentAttr = none)
    (hmiss : memoLookup st.memo (.strlit v, p) = none) :
    drive env (.toks es) (fuel + 2) st (.key (.strlit v) p) = .error .attrError ∧
    (p = 0 →
      parse_prefixE env (.toks es) (fuel + 4) (.strlit v) = .error .attrError ∧
      parseE env (.toks es) (fuel + 4) (.strlit v) = .error .attrError) := by
  have key_err : ∀ (m : Nat) (st' : St), memoLookup st'.memo (.strlit v, p) = none →
      drive env (.toks es) (m + 2) st' (.key (.strlit v) p) = .error .attrError := by
    intro m st' hm
    rw [show m + 2 = (m + 1) + 1 from rfl, drive_succ_key]
    simp only [resolveRef, hm]
    rw [drive_succ_frame]
    simp only [step, dif_pos h, hc]
  refine ⟨key_err fuel st hmiss, ?_⟩
  intro hp
  subst hp
  constructor
  · unfold parse_prefixE runRaw
    rw [key_err (fuel + 2) ⟨[], []⟩ rfl]
  · unfold parseE parse_prefixE runRaw
    rw [show fuel + 4 = (fuel + 3) + 1 from rfl, drive_succ_key]
    simp only [resolveRef, memoLookup]
    rw [drive_succ_frame]
    simp only [step]
    rw [key_err fuel _ (by simp [memoLookup, memoInsert])]

/-- Witness for C10 at a concrete input: the token source `[None]` whose
element has no `content` attribute. -/
theorem claim10_missing_content_attr_witness :
    drive emptyEnv (.toks [.enone]) 2 ⟨[], []⟩ (.key (.strlit "x") 0) = .error .attrError ∧
    parseE emptyEnv (.toks [.enone]) 4 (.strlit "x") = .error .attrError :=
  ⟨(claim10_missing_content_attr emptyEnv ⟨[], []⟩ 0 [.enone] "x" 0 (by decide) rfl rfl).1,
   ((claim10_missing_content_attr emptyEnv ⟨[], []⟩ 0 [.enone] "x" 0 (by decide) rfl rfl).2 rfl).2⟩

/-- Lifting fuel monotonicity to sequential field evaluation. -/
theorem fieldsRun_mono (env : Env) (src : Source) :
    ∀ (fs : List (String × Term)) (fuel : Nat) (st : St) (p : Nat)
      (r : St × Option (List (String × Val) × Nat)),
      fieldsRun env src fuel fs st p = .ok r → fieldsRun env src (fuel + 1) fs st p = .ok r := by
  intro fs
  induction fs with
  | nil => intro fuel st p r h; simpa [fieldsRun] using h
  | cons f fs ih =>
    intro fuel st p r h
    obtain ⟨n, t⟩ := f
    simp only [fieldsRun] at h ⊢
    cases hk : drive env src fuel st (.key t p) with
    | error e => rw [hk] at h; simp at h
    | ok r1 =>
      obtain ⟨st1, a1⟩ := r1
      rw [hk] at h
      rw [drive_mono env src _ _ _ _ hk]
      cases a1 with
      | noAns => simp at h
      | failure => dsimp only at h ⊢; exact h
      | success v q =>
        dsimp only at h ⊢
        cases hf : fieldsRun env src fuel fs st1 q with
        | error e => rw [hf] at h; simp at h
        | ok r2 =>
          rw [hf] at h
          rw [ih _ _ _ _ hf]
          exact h

/-- The struct-field loop of `_parse_simple_struct`, resumed after its
current field succeeded with value `v` at position `q`, behaves as the
sequential evaluation of the remaining declared fields: the values are
stored under their field names in order, positions are threaded, the final
position is the one after the last field, and any field failure fails the
whole struct. -/
theorem structLoop_fieldsRun (env : Env) (src : Source) (cls : String) :
    ∀ (pending : List (String × Term)) (fuel : Nat) (st : St) (cur : String)
      (acc : List (String × Val)) (v : Val) (q : Nat) (st' : St) (a : Ans),
      drive env src (fuel + 1) st
          (.frame (.structLoop cls cur pending acc) (.success v q)) = .ok (st', a) →
      ∃ r, fieldsRun env src (fuel + 1) pending st q = .ok (st', r) ∧
        a = (match r with
             | some (fvs, rq) => Ans.success (.vinst cls (acc ++ [(cur, v)] ++ fvs)) rq
             | none => Ans.failure) := by
  intro pending
  induction pending with
  | nil =>
    intro fuel st cur acc v q st' a h
    rw [drive_succ_frame] at h
    simp only [step] at h
    obtain ⟨h1, h2⟩ : st = st' ∧ Ans.success (.vinst cls (acc ++ [(cur, v)])) q = a := by
      simpa using h
    refine ⟨some ([], q), by simp [fieldsRun, h1], by simp [← h2]⟩
  | cons f fs ih =>
    obtain ⟨n2, t2⟩ := f
    intro fuel st cur acc v q st' a h
    rw [drive_succ_frame] at h
    simp only [step] at h
    cases hk : drive env src fuel st (.key t2 q) with
    | error e => rw [hk] at h; simp at h
    | ok r1 =>
      obtain ⟨st1, a1⟩ := r1
      rw [hk] at h
      dsimp only at h
      cases a1 with
      | noAns =>
        cases fuel with
        | zero => rw [drive_zero] at h; simp at h
        | succ m =>
          rw [drive_succ_frame] at h
          simp only [step] at h
          exact absurd h (by simp)
      | failure =>
        cases fuel with
        | zero => rw [drive_zero] at h; simp at h
        | succ m =>
          rw [drive_succ_frame] at h
          simp only [step] at h
          obtain ⟨h1, h2⟩ : st1 = st' ∧ Ans.failure = a := by simpa using h
          refine ⟨none, ?_, by simp [← h2]⟩
          simp only [fieldsRun]
          rw [drive_mono env src _ _ _ _ hk]
          simp [h1]
      | success v2 q2 =>
        cases fuel with
        | zero => rw [drive_zero] at h; simp at h
        | succ m =>
          obtain ⟨r', hf, ha⟩ := ih m st1 n2 (acc ++ [(cur, v)]) v2 q2 st' a h
          refine ⟨r'.map (fun pr => ((n2, v2) :: pr.1, pr.2)), ?_, ?_⟩
          · simp only [fieldsRun]
            rw [drive_mono env src _ _ _ _ hk]
            dsimp only
            rw [fieldsRun_mono env src _ _ _ _ _ hf]
            cases r' with
            | none => simp
            | some pr => obtain ⟨fvs, rq⟩ := pr; simp
          · cases r' with
            | none => simpa using ha
            | some pr =>
              obtain ⟨fvs, rq⟩ := pr
              simpa using ha

/-- A success position at or after `q` is at or after any `f ≤ q`. -/
theorem AnsOK_weaken {a : Ans} {f q : Nat} (hfq : f ≤ q) (h : AnsOK a q) : AnsOK a f := by
  cases a <;> simp_all [AnsOK] <;> omega

/-- `getLastD` picks an element of the list extended with the default. -/
theorem getLastD_mem_cons {α : Type} :
    ∀ (l : List α) (a : α), l.getLastD a ∈ a :: l := by
  intro l
  induction l with
  | nil => intro a; simp [List.getLastD]
  | cons b bs ih =>
    intro a
    rw [List.getLastD_cons]
    exact List.mem_cons_of_mem a (ih b)

/-- A converted list is backtrack-free when all its members are. -/
theorem noBTL_ofList {l : List Term} (h : ∀ t ∈ l, noBT t = true) :
    noBTL (TermList.ofList l) = true := by
  induction l with
  | nil => rfl
  | cons t ts ih =>
    simp only [TermList.ofList, noBTL, Bool.and_eq_true]
    exact ⟨h t (by simp), ih (fun u hu => h u (by simp [hu]))⟩

/-- Forward-reference resolution preserves backtrack-freedom under a
backtrack-free environment. -/
theorem resolveRef_noBT (env : Env) (hbt : envNoBT env) :
    ∀ (n : Nat) (t t' : Term), noBT t = true → resolveRef env n t = some t' →
      noBT t' = true := by
  intro n
  induction n with
  | zero => intro t t' hb h; cases t <;> simp_all [resolveRef]
  | succ m ih =>
    intro t t' hb h
    cases t
    case ref nm =>
      simp only [resolveRef] at h
      cases hr : env.refs nm with
      | none => simp [hr] at h
      | some t2 =>
        rw [hr] at h
        exact ih t2 t' (hbt.1 nm t2 hr) h
    all_goals simp_all [resolveRef]

/-- Inserting a floor-respecting answer preserves the memo position
invariant. -/
theorem memoPosOK_insert {m : Memo} {k : Key} {a : Ans}
    (hm : memoPosOK m) (ha : AnsOK a k.2) : memoPosOK (memoInsert m k a) := by
  intro t p q v h
  by_cases hk : k = (t, p)
  · subst hk
    rw [memoLookup_insert_self] at h
    cases a <;> simp_all [AnsOK]
  · rw [memoLookup_insert_ne _ _ _ _ hk] at h
    exact hm t p q v h

/-- Each suspension step preserves the position / backtrack-freedom
invariant: with a well-formed frame and a floor-respecting incoming answer,
a final answer respects the floor and a sub-request is well-formed. -/
theorem step_spec (env : Env) (src : Source) (hbt : envNoBT env) :
    ∀ (fr : Frame) (ans : Ans) (f : Nat), FrameOK fr f → AnsOK ans f →
      StepOK f (step env src fr ans) := by
  intro fr ans f hfr hans
  cases fr with
  | init t p =>
    obtain ⟨hfp, hbtT⟩ := hfr
    cases ans with
    | noAns =>
      cases t with
      | nothing => simpa [step, StepOK, AnsOK] using hfp
      | retNone => simpa [step, StepOK, AnsOK] using hfp
      | endT =>
        simp only [step, StepOK]
        split <;> simp_all [AnsOK]
      | backtrack => simp [noBT] at hbtT
      | strlit sv =>
        cases src with
        | chars cs =>
          simp only [step, StepOK]
          split <;> simp_all [AnsOK] <;> omega
        | toks es =>
          simp only [step]
          split
          · split
            · simp [StepOK]
            · simp only [StepOK]
              split <;> simp_all [AnsOK] <;> omega
          · simp [StepOK, AnsOK]
      | litNone =>
        cases src with
        | chars cs => simp [step, StepOK, AnsOK]
        | toks es =>
          simp only [step]
          split
          · simp only [StepOK]
            split <;> simp_all [AnsOK] <;> omega
          · simp [StepOK, AnsOK]
      | tup items =>
        cases items with
        | nil => simpa [step, StepOK, AnsOK] using hfp
        | cons t1 ts =>
          simp only [noBT, noBTL, Bool.and_eq_true] at hbtT
          simp only [step, StepOK, FrameOK]
          exact ⟨hfp, hbtT.1, hbtT.2⟩
      | strukt cls =>
        simp only [step]
        cases hsc : env.structs cls with
        | none => simp [StepOK]
        | some fts =>
          cases fts with
          | nil => simpa [StepOK, AnsOK] using hfp
          | cons f1 fs =>
            obtain ⟨n1, t1⟩ := f1
            simp only [StepOK, FrameOK]
            refine ⟨hfp, hbt.2 cls _ hsc (n1, t1) (by simp), ?_⟩
            intro pr hpr
            exact hbt.2 cls _ hsc pr (by simp [hpr])
      | lassoc cls =>
        simp only [step, delegateOf]
        cases hsc : env.structs cls with
        | none => simp [StepOK]
        | some fts =>
          cases fts with
          | nil => simp [StepOK]
          | cons f0 rest =>
            have hflds := hbt.2 cls _ hsc
            simp only [StepOK, reduceInitStep, FrameOK]
            refine ⟨hfp, hflds f0 (by simp), ?_, ?_⟩
            · refine noBTL_ofList ?_
              intro u hu
              obtain ⟨pr, hpr, rfl⟩ := List.mem_map.mp hu
              exact hflds pr (List.mem_cons_of_mem f0 (List.dropLast_subset rest hpr))
            · exact hflds _ (getLastD_mem_cons rest f0)
      | rassoc cls =>
        simp only [step, delegateOf]
        cases hsc : env.structs cls with
        | none => simp [StepOK]
        | some fts =>
          cases fts with
          | nil => simp [StepOK]
          | cons f0 rest =>
            have hflds := hbt.2 cls _ hsc
            simp only [StepOK, reduceInitStep, FrameOK]
            refine ⟨hfp, hflds f0 (by simp), hfp, hflds f0 (by simp), ?_, ?_⟩
            · refine noBTL_ofList ?_
              intro u hu
              obtain ⟨pr, hpr, rfl⟩ := List.mem_map.mp hu
              exact hflds pr (List.mem_cons_of_mem f0 (List.dropLast_subset rest hpr))
            · exact hflds _ (getLastD_mem_cons rest f0)
      | reduceL fst mids lst b =>
        simp only [noBT, Bool.and_eq_true] at hbtT
        simp only [step, reduceInitStep, StepOK, FrameOK]
        exact ⟨hfp, hbtT.1.1, hbtT.1.2, hbtT.2⟩
      | reduceR fst mids lst b =>
        simp only [noBT, Bool.and_eq_true] at hbtT
        simp only [step, reduceInitStep, StepOK, FrameOK]
        exact ⟨hfp, hbtT.1.1, hfp, hbtT.1.1, hbtT.1.2, hbtT.2⟩
      | seqL a b =>
        simp only [noBT, Bool.and_eq_true] at hbtT
        simp only [step, StepOK, FrameOK]
        exact ⟨hfp, hbtT.1, hbtT.2⟩
      | orElse a b =>
        simp only [noBT, Bool.and_eq_true] at hbtT
        simp only [step, StepOK, FrameOK]
        exact ⟨hfp, hbtT.1, hfp, hbtT.2⟩
      | ref nm => simp [step, StepOK]
    | failure => simp [step, StepOK]
    | success v q => simp [step, StepOK]
  | tupleLoop pending acc =>
    cases ans with
    | noAns => simp [step, StepOK]
    | failure => simp [step, StepOK, AnsOK]
    | success v q =>
      cases pending with
      | nil => simpa [step, StepOK, AnsOK] using hans
      | cons t2 ts =>
        simp only [FrameOK, noBTL, Bool.and_eq_true] at hfr
        simp only [step, StepOK, FrameOK]
        exact ⟨hans, hfr.1, hfr.2⟩
  | structLoop cls cur pending acc =>
    cases ans with
    | noAns => simp [step, StepOK]
    | failure => simp [step, StepOK, AnsOK]
    | success v q =>
      cases pending with
      | nil => simpa [step, StepOK, AnsOK] using hans
      | cons f2 fs =>
        obtain ⟨n2, t2⟩ := f2
        simp only [step, StepOK, FrameOK]
        refine ⟨hans, hfr (n2, t2) (by simp), fun pr hpr => hfr pr (by simp [hpr])⟩
  | seqLWaitA b =>
    cases ans with
    | noAns => simp [step, StepOK]
    | failure => simp [step, StepOK, AnsOK]
    | success va pa =>
      simp only [step, StepOK, FrameOK]
      exact ⟨hans, hfr, trivial⟩
  | seqLWaitB va =>
    cases ans with
    | noAns => simp [step, StepOK]
    | failure => simp [step, StepOK, AnsOK]
    | success vb pb => simpa [step, StepOK, AnsOK] using hans
  | orWait b p =>
    cases ans with
    | noAns => simp [step, StepOK]
    | failure =>
      simp only [step, StepOK, FrameOK]
      exact ⟨hfr.1, hfr.2, trivial⟩
    | success v q => simpa [step, StepOK, AnsOK] using hans
  | orPass =>
    cases ans with
    | noAns => simp [step, StepOK]
    | failure => simp [step, StepOK, AnsOK]
    | success v q => simpa [step, StepOK, AnsOK] using hans
  | rlAfterFirst mids lst b =>
    cases ans with
    | noAns => simp [step, StepOK]
    | failure => simp [step, StepOK, AnsOK]
    | success v q =>
      cases mids with
      | nil =>
        simp only [step, rlGroupStep, StepOK, FrameOK]
        exact ⟨hans, hfr.2, hans, hfr.1, hfr.2⟩
      | cons m ms =>
        simp only [FrameOK, noBTL, Bool.and_eq_true] at hfr
        obtain ⟨⟨hm, hms⟩, hl⟩ := hfr
        simp only [step, rlGroupStep, StepOK, FrameOK]
        exact ⟨hans, hm, hans, by simp [noBTL, hm, hms], hl, hms⟩
  | rlMids mids lst b acc grp pending ops =>
    cases ans with
    | noAns => simp [step, StepOK]
    | failure =>
      obtain ⟨hg, _, _, _⟩ := hfr
      simpa [step, StepOK, AnsOK] using hg
    | success w q =>
      obtain ⟨hg, hmids, hl, hpend⟩ := hfr
      cases pending with
      | nil =>
        simp only [step, StepOK, FrameOK]
        exact ⟨hans, hl, hg, hmids, hl⟩
      | cons m ms =>
        simp only [noBTL, Bool.and_eq_true] at hpend
        simp only [step, StepOK, FrameOK]
        exact ⟨hans, hpend.1, hg, hmids, hl, hpend.2⟩
  | rlLast mids lst b acc grp ops =>
    cases ans with
    | noAns => simp [step, StepOK]
    | failure =>
      obtain ⟨hg, _, _⟩ := hfr
      simpa [step, StepOK, AnsOK] using hg
    | success r q =>
      obtain ⟨hg, hmids, hl⟩ := hfr
      cases mids with
      | nil =>
        simp only [step, rlGroupStep, StepOK, FrameOK]
        exact ⟨hans, hl, hans, by simp [noBTL], hl⟩
      | cons m ms =>
        simp only [noBTL, Bool.and_eq_true] at hmids
        simp only [step, rlGroupStep, StepOK, FrameOK]
        exact ⟨hans, hmids.1, hans, by simp [noBTL, hmids.1, hmids.2], hl, hmids.2⟩
  | rrFirst fst mids lst b prefixes grp =>
    obtain ⟨hg, hfst, hmids, hl⟩ := hfr
    cases ans with
    | noAns => simp [step, StepOK]
    | failure =>
      cases prefixes with
      | nil => simp [step, StepOK, AnsOK]
      | cons pr prs =>
        simp only [step, StepOK, FrameOK]
        exact ⟨hg, hl, trivial⟩
    | success v q =>
      cases mids with
      | nil =>
        simp only [step, StepOK, FrameOK]
        exact ⟨hans, hfst, hans, hfst, by simp [noBTL], hl⟩
      | cons m ms =>
        simp only [noBTL, Bool.and_eq_true] at hmids
        simp only [step, StepOK, FrameOK]
        exact ⟨hans, hmids.1, hg, hfst, by simp [noBTL, hmids.1, hmids.2], hl, hmids.2⟩
  | rrMids fst mids lst b prefixes grp lv pending ops =>
    obtain ⟨hg, hfst, hmids, hl, hpend⟩ := hfr
    cases ans with
    | noAns => simp [step, StepOK]
    | failure =>
      cases prefixes with
      | nil => simp [step, StepOK, AnsOK]
      | cons pr prs =>
        simp only [step, StepOK, FrameOK]
        exact ⟨hg, hl, trivial⟩
    | success w q =>
      cases pending with
      | nil =>
        simp only [step, StepOK, FrameOK]
        exact ⟨hans, hfst, hans, hfst, hmids, hl⟩
      | cons m ms =>
        simp only [noBTL, Bool.and_eq_true] at hpend
        simp only [step, StepOK, FrameOK]
        exact ⟨hans, hpend.1, hg, hfst, hmids, hl, hpend.2⟩
  | rrLast b prefixes =>
    cases ans with
    | noAns => simp [step, StepOK]
    | failure => simp [step, StepOK, AnsOK]
    | success r q => simpa [step, StepOK, AnsOK] using hans

/-- The driver-level position invariant: under a backtrack-free environment,
evaluating a backtrack-free term at position `p` preserves the memo
invariant and, when it succeeds, reports a position at or after `p`;
resuming a well-formed suspension likewise respects its floor. -/
theorem drive_pos_invariant (env : Env) (src : Source) (hbt : envNoBT env) :
    ∀ (fuel : Nat),
      (∀ (st : St) (t : Term) (p : Nat) (st' : St) (a : Ans),
        memoPosOK st.memo → noBT t = true →
        drive env src fuel st (.key t p) = .ok (st', a) →
        memoPosOK st'.memo ∧ AnsOK a p) ∧
      (∀ (st : St) (fr : Frame) (ans : Ans) (f : Nat) (st' : St) (a : Ans),
        memoPosOK st.memo → FrameOK fr f → AnsOK ans f →
        drive env src fuel st (.frame fr ans) = .ok (st', a) →
        memoPosOK st'.memo ∧ AnsOK a f) := by
  intro fuel
  induction fuel with
  | zero =>
    exact ⟨fun st t p st' a _ _ h => by rw [drive_zero] at h; exact absurd h (by simp),
           fun st fr ans f st' a _ _ _ h => by rw [drive_zero] at h; exact absurd h (by simp)⟩
  | succ n ih =>
    constructor
    · intro st t p st' a hm hbtT h
      rw [drive_succ_key] at h
      cases hres : resolveRef env (n + 1) t with
      | none => simp [hres] at h
      | some t' =>
        have hbt' := resolveRef_noBT env hbt _ _ _ hbtT hres
        simp only [hres] at h
        cases hhit : memoLookup st.memo (t', p) with
        | some a0 =>
          simp only [hhit] at h
          obtain ⟨h1, h2⟩ := by simpa using h
          subst h2
          refine ⟨by rw [← h1]; exact hm, ?_⟩
          cases a0 with
          | noAns => exact trivial
          | failure => exact trivial
          | success v q => exact hm t' p q v hhit
        | none =>
          simp only [hhit] at h
          cases hfr2 : drive env src n
              { memo := memoInsert st.memo (t', p) .failure, log := st.log }
              (.frame (.init t' p) .noAns) with
          | error e => simp [hfr2] at h
          | ok r2 =>
            obtain ⟨st2, a2⟩ := r2
            simp only [hfr2] at h
            obtain ⟨h1, h2⟩ := by simpa using h
            subst h2
            have hmseed : memoPosOK (memoInsert st.memo (t', p) Ans.failure) :=
              memoPosOK_insert hm trivial
            obtain ⟨hm2, ha2⟩ :=
              ih.2 _ (.init t' p) .noAns p st2 a2 hmseed ⟨le_refl p, hbt'⟩ trivial hfr2
            refine ⟨?_, ha2⟩
            rw [← h1]
            exact memoPosOK_insert hm2 ha2
    · intro st fr ans f st' a hm hfr hans h
      rw [drive_succ_frame] at h
      have hstep := step_spec env src hbt fr ans f hfr hans
      cases hst : step env src fr ans with
      | err e => simp [hst] at h
      | done a0 =>
        rw [hst] at hstep
        simp only [hst] at h
        obtain ⟨h1, h2⟩ := by simpa using h
        subst h2
        exact ⟨by rw [← h1]; exact hm, hstep⟩
      | request t q k =>
        rw [hst] at hstep
        obtain ⟨hfq, hbtT, hk⟩ := hstep
        simp only [hst] at h
        cases hkey : drive env src n st (.key t q) with
        | error e => simp [hkey] at h
        | ok r1 =>
          obtain ⟨st1, a1⟩ := r1
          rw [hkey] at h
          dsimp only at h
          obtain ⟨hm1, ha1⟩ := ih.1 st t q st1 a1 hm hbtT hkey
          exact ih.2 st1 k a1 f st' a hm1 hk (AnsOK_weaken hfq ha1) h

/-- C4 (counterexample): it is *not* true that every combinator at `p`
either fails or returns a position `p' ≥ p`: the `Backtrack` combinator at
position 1 succeeds and reports position 0 < 1. -/
theorem claim4_counterexample :
    drive emptyEnv (.chars ['a', 'b']) 2 ⟨[], []⟩ (.key .backtrack 1) =
      .ok (⟨[((.backtrack, 1), .success .vnone 0), ((.backtrack, 1), .failure)],
           [((.backtrack, 1), .success .vnone 0)]⟩, .success .vnone 0) ∧
    ¬ (1 ≤ 0) := ⟨rfl, by omega⟩

/-- C4 (amended): for every combinator other than `Backtrack` (and with the
grammar environment free of `Backtrack`), evaluating the combinator at
position `p` over any source either fails or errs or returns `(v, p')` with
`p' ≥ p`; no successful parse step reports a position smaller than its start
position, and every success recorded in the memo respects its key's
position. -/
theorem claim4_amended_pos_monotone (env : Env) (src : Source) (fuel : Nat)
    (t : Term) (p : Nat) (st st' : St) (v : Val) (q : Nat)
    (hbt : envNoBT env) (hbtT : noBT t = true) (hm : memoPosOK st.memo)
    (h : drive env src fuel st (.key t p) = .ok (st', .success v q)) :
    p ≤ q ∧ memoPosOK st'.memo :=
  ((drive_pos_invariant env src hbt fuel).1 st t p st' (.success v q) hm hbtT h).symm

/-- Witness for the amended C4 at a concrete input: the literal "ab" at 0
ends at 2 ≥ 0. -/
theorem claim4_amended_pos_monotone_witness :
    ∃ st' : St, drive emptyEnv (.chars ['a', 'b']) 5 ⟨[], []⟩ (.key (.strlit "ab") 0) =
      .ok (st', .success (.vstr "ab") 2) ∧ (0 ≤ 2 ∧ memoPosOK st'.memo) := by
  refine ⟨_, rfl, ?_⟩
  exact claim4_amended_pos_monotone emptyEnv (.chars ['a', 'b']) 5 (.strlit "ab") 0 ⟨[], []⟩ _
    (.vstr "ab") 2
    ⟨fun n t h => by simp [emptyEnv] at h, fun c fts h => by simp [emptyEnv] at h⟩
    rfl (fun t p q v h => by simp [memoLookup] at h) rfl

/-- C5: parsing a simple `Struct` descriptor at position `p` evaluates the
declared fields in declaration (assignment) order, each field starting at
the position where the previous field ended, stores each resulting value
under its field name in order on the fresh instance, and succeeds at the
position after the last field; if any field term fails, the whole struct
parse fails. -/
theorem claim5_simple_struct (env : Env) (src : Source) (fuel : Nat) (st : St)
    (cls : String) (fts : List (String × Term)) (p : Nat) (st' : St) (a : Ans)
    (hs : env.structs cls = some fts)
    (hmiss : memoLookup st.memo (.strukt cls, p) = none)
    (h : drive env src (fuel + 2) st (.key (.strukt cls) p) = .ok (st', a)) :
    ∃ st2 r,
      fieldsRun env src (fuel + 1) fts
        { memo := memoInsert st.memo (.strukt cls, p) .failure, log := st.log } p = .ok (st2, r) ∧
      a = (match r with
           | some (fvs, rq) => Ans.success (.vinst cls fvs) rq
           | none => Ans.failure) ∧
      st' = { memo := memoInsert st2.memo (.strukt cls, p) a,
              log := st2.log ++ [((.strukt cls, p), a)] } := by
  rw [show fuel + 2 = (fuel + 1) + 1 from rfl, drive_succ_key] at h
  simp only [resolveRef, hmiss] at h
  rw [drive_succ_frame] at h
  simp only [step, hs] at h
  cases fts with
  | nil =>
    obtain ⟨h1, h2⟩ : _ ∧ Ans.success (Val.vinst cls []) p = a := by simpa using h
    refine ⟨{ memo := memoInsert st.memo (.strukt cls, p) .failure, log := st.log },
            some ([], p), by simp [fieldsRun], by simp [← h2], by simp [← h1, ← h2]⟩
  | cons f fs =>
    obtain ⟨n1, t1⟩ := f
    dsimp only at h
    cases hk : drive env src fuel
        { memo := memoInsert st.memo (.strukt cls, p) .failure, log := st.log }
        (.key t1 p) with
    | error e => rw [hk] at h; simp at h
    | ok r1 =>
      obtain ⟨st1, a1⟩ := r1
      rw [hk] at h
      dsimp only at h
      cases a1 with
      | noAns =>
        cases fuel with
        | zero => rw [drive_zero] at h; simp at h
        | succ m =>
          rw [drive_succ_frame] at h
          simp only [step] at h
          exact absurd h (by simp)
      | failure =>
        cases fuel with
        | zero => rw [drive_zero] at h; simp at h
        | succ m =>
          rw [drive_succ_frame] at h
          simp only [step] at h
          obtain ⟨h1, h2⟩ : _ ∧ Ans.failure = a := by simpa using h
          refine ⟨st1, none, ?_, by simp [← h2], by simp [← h1, ← h2]⟩
          simp only [fieldsRun]
          rw [drive_mono env src _ _ _ _ hk]
      | success v1 q1 =>
        cases fuel with
        | zero => rw [drive_zero] at h; simp at h
        | succ m =>
          obtain ⟨hst', ha⟩ :
              ∃ stF aF, drive env src (m + 1) st1
                (.frame (.structLoop cls n1 fs []) (.success v1 q1)) = .ok (stF, aF) := by
            cases hcont : drive env src (m + 1) st1
                (.frame (.structLoop cls n1 fs []) (.success v1 q1)) with
            | error e => rw [hcont] at h; simp at h
            | ok r2 => obtain ⟨sF, aF2⟩ := r2; exact ⟨sF, aF2, rfl⟩
          obtain ⟨aF, hcont⟩ := ha
          rw [hcont] at h
          dsimp only at h
          obtain ⟨h1, h2⟩ : _ ∧ aF = a := by simpa using h
          obtain ⟨r', hf, haF⟩ := structLoop_fieldsRun env src cls fs m st1 n1 [] v1 q1 _ _ hcont
          refine ⟨hst', r'.map (fun pr => ((n1, v1) :: pr.1, pr.2)), ?_, ?_, ?_⟩
          · simp only [fieldsRun]
            rw [drive_mono env src _ _ _ _ hk]
            dsimp only
            rw [fieldsRun_mono env src _ _ _ _ _ hf]
            cases r' with
            | none => simp
            | some pr => obtain ⟨fvs, rq⟩ := pr; simp
          · rw [← h2, haF]
            cases r' with
            | none => simp
            | some pr => obtain ⟨fvs, rq⟩ := pr; simp
          · simp [← h1, ← h2]

/-- Witness for C5 at a concrete input: parsing the `Pair` struct over
"1,2" stores the three fields in order and ends at position 3. -/
theorem claim5_simple_struct_witness :
    ∃ (st' st2 : St) (a : Ans) (r : Option (List (String × Val) × Nat)),
      drive pairEnv (.chars ['1', ',', '2']) 18 ⟨[], []⟩ (.key (.strukt "Pair") 0) = .ok (st', a) ∧
      fieldsRun pairEnv (.chars ['1', ',', '2']) 17 pairFields
        ⟨[((.strukt "Pair", 0), .failure)], []⟩ 0 = .ok (st2, r) ∧
      a = (match r with
           | some (fvs, rq) => Ans.success (.vinst "Pair" fvs) rq
           | none => Ans.failure) := by
  obtain ⟨st2, r, h1, h2, h3⟩ :=
    claim5_simple_struct pairEnv (.chars ['1', ',', '2']) 16 ⟨[], []⟩ "Pair" pairFields 0 _ _
      rfl rfl rfl
  exact ⟨_, st2, _, r, rfl, h1, h2⟩

/-- C9: `parse_prefix` never returns a failure value: when the driver's
answer is `FAILURE` it raises `ParseError`, and a returned value is always a
`ParseResult` pair `(value, pos)`; `parse` funnels through the same driver
and propagates the same `ParseError`. -/
theorem claim9_parse_prefix_never_fails (env : Env) (src : Source) (fuel : Nat) (t : Term) :
    (∀ a, parse_prefixE env src fuel t = .ok a → ∃ v p, a = .success v p) ∧
    (∀ st : St, runRaw env src fuel t = .ok (st, .failure) →
      parse_prefixE env src fuel t = .error .parseError) ∧
    (parse_prefixE env src fuel (.seqL t .endT) = .error .parseError →
      parseE env src fuel t = .error .parseError) := by
  refine ⟨?_, ?_, ?_⟩
  · intro a ha
    unfold parse_prefixE at ha
    cases hrun : runRaw env src fuel t with
    | error e => rw [hrun] at ha; simp at ha
    | ok r =>
      obtain ⟨st, b⟩ := r
      rw [hrun] at ha
      have hempty : memoNoNoAns (⟨[], []⟩ : St).memo := fun k => by simp [memoLookup]
      have hb := (drive_no_noAns env src fuel _ _ _ _ hempty hrun).2
      cases b with
      | noAns => exact absurd rfl hb
      | failure => simp at ha
      | success v p => exact ⟨v, p, by simpa using ha.symm⟩
  · intro st hrun
    unfold parse_prefixE
    rw [hrun]
  · intro hpp
    unfold parseE
    rw [hpp]

/-- Witness for C9 at a concrete input: a successful prefix parse yields a
`ParseResult` pair. -/
theorem claim9_parse_prefix_never_fails_witness :
    ∃ v p, (Ans.success (Val.vstr "a") 1) = .success v p :=
  (claim9_parse_prefix_never_fails emptyEnv (.chars ['a', 'b']) 5 (.strlit "a")).1
    (.success (.vstr "a") 1) rfl

/-- C2: `parse(T, s)` returns exactly the value component of
`parse_prefix(Left(T, End), s)`; a successful wrapped run ends at the end of
the source, so `parse` fails whenever the source is not fully consumed even
if `T` succeeds on a proper prefix; and `parse(Left(T, End), s)` agrees with
`parse(T, s)`: successful values and `ParseError` outcomes transfer in both
directions (up to fuel). -/
theorem claim2_parse_wrapping (env : Env) (src : Source) (t : Term) :
    (∀ fuel v p, parse_prefixE env src fuel (.seqL t .endT) = .ok (.success v p) →
      parseE env src fuel t = .ok v) ∧
    (∀ fuel v p, parse_prefixE env src fuel (.seqL t .endT) = .ok (.success v p) →
      p = src.length) ∧
    (∀ fuel v, parseE env src fuel t = .ok v →
      ∃ fuel2, parseE env src fuel2 (.seqL t .endT) = .ok v) ∧
    (∀ fuel v, parseE env src fuel (.seqL t .endT) = .ok v →
      ∃ fuel2, parseE env src fuel2 t = .ok v) ∧
    (∀ fuel, parseE env src fuel t = .error .parseError →
      ∃ fuel2, parseE env src fuel2 (.seqL t .endT) = .error .parseError) ∧
    (∀ fuel, parseE env src fuel (.seqL t .endT) = .error .parseError →
      ∃ fuel2, parseE env src fuel2 t = .error .parseError) := by
  have hppE : ∀ (fuel : Nat) (u : Term) (a' : Ans), parse_prefixE env src fuel u = .ok a' →
      ∃ st, runRaw env src fuel u = .ok (st, a') ∧ a' ≠ .failure := by
    intro fuel u a' hp
    simp only [parse_prefixE] at hp
    cases hr : runRaw env src fuel u with
    | error e => rw [hr] at hp; cases hp
    | ok r =>
      obtain ⟨st, b⟩ := r
      rw [hr] at hp
      cases b with
      | failure => cases hp
      | noAns =>
        obtain h' : Ans.noAns = a' := by simpa using hp
        subst h'
        exact ⟨st, rfl, by simp⟩
      | success v p =>
        obtain h' : Ans.success v p = a' := by simpa using hp
        subst h'
        exact ⟨st, rfl, by simp⟩
  have hmk : ∀ (fuel : Nat) (u : Term) (st : St) (a' : Ans),
      runRaw env src fuel u = .ok (st, a') → a' ≠ .failure →
      parse_prefixE env src fuel u = .ok a' := by
    intro fuel u st a' hr hne
    simp only [parse_prefixE]
    rw [hr]
    cases a' with
    | failure => exact absurd rfl hne
    | noAns => rfl
    | success v p => rfl
  have hmkF : ∀ (fuel : Nat) (u : Term) (st : St),
      runRaw env src fuel u = .ok (st, .failure) →
      parse_prefixE env src fuel u = .error .parseError := by
    intro fuel u st hr
    simp only [parse_prefixE]
    rw [hr]
  have hppF : ∀ (fuel : Nat) (u : Term), parse_prefixE env src fuel u = .error .parseError →
      ∃ st, runRaw env src fuel u = .ok (st, .failure) := by
    intro fuel u hp
    simp only [parse_prefixE] at hp
    cases hr : runRaw env src fuel u with
    | error e =>
      rw [hr] at hp
      obtain h' : e = Exc.parseError := by simpa using hp
      exact absurd h'
        (drive_no_parseError env src fuel { memo := [], log := [] } (.key u 0) e hr)
    | ok r =>
      obtain ⟨st, b⟩ := r
      rw [hr] at hp
      cases b with
      | failure => exact ⟨st, rfl⟩
      | noAns => simp at hp
      | success v p => simp at hp
  have hpe : ∀ (fuel : Nat) (u : Term) (v : Val), parseE env src fuel u = .ok v ↔
      ∃ p, parse_prefixE env src fuel (.seqL u .endT) = .ok (.success v p) := by
    intro fuel u v
    constructor
    · intro hv
      simp only [parseE] at hv
      cases hq : parse_prefixE env src fuel (.seqL u .endT) with
      | error e => rw [hq] at hv; cases hv
      | ok b =>
        rw [hq] at hv
        cases b with
        | noAns => cases hv
        | failure => cases hv
        | success w p =>
          obtain h' : w = v := by simpa using hv
          subst h'
          exact ⟨p, rfl⟩
    · intro hex
      obtain ⟨p, hq⟩ := hex
      simp only [parseE]
      rw [hq]
  have hpeErr : ∀ (fuel : Nat) (u : Term), parseE env src fuel u = .error .parseError ↔
      parse_prefixE env src fuel (.seqL u .endT) = .error .parseError := by
    intro fuel u
    constructor
    · intro hv
      simp only [parseE] at hv
      cases hq : parse_prefixE env src fuel (.seqL u .endT) with
      | error e =>
        rw [hq] at hv
        obtain h' : e = Exc.parseError := by simpa using hv
        rw [h']
      | ok b =>
        rw [hq] at hv
        cases b with
        | noAns => simp at hv
        | failure =>
          obtain ⟨st, -, hne⟩ := hppE fuel (.seqL u .endT) .failure hq
          exact absurd rfl hne
        | success w p => simp at hv
    · intro hq
      simp only [parseE]
      rw [hq]
  refine ⟨?_, ?_, ?_, ?_, ?_, ?_⟩
  · intro fuel v p hp
    exact (hpe fuel t v).2 ⟨p, hp⟩
  · intro fuel v p hp
    obtain ⟨st, hr, -⟩ := hppE fuel (.seqL t .endT) (.success v p) hp
    cases fuel with
    | zero => rw [runRaw, drive_zero] at hr; cases hr
    | succ f => exact (runRaw_w1_w2 env src t f st _ hr).1 v p rfl
  · intro fuel v hv
    obtain ⟨p, hp⟩ := (hpe fuel t v).1 hv
    obtain ⟨st, hr, -⟩ := hppE fuel (.seqL t .endT) (.success v p) hp
    cases fuel with
    | zero => rw [runRaw, drive_zero] at hr; cases hr
    | succ f =>
      obtain ⟨-, stB, hB⟩ := runRaw_w1_w2 env src t f st _ hr
      exact ⟨f + 6, (hpe (f + 6) (.seqL t .endT) v).2
        ⟨p, hmk (f + 6) (.seqL (.seqL t .endT) .endT) stB (.success v p) hB (by simp)⟩⟩
  · intro fuel v hv
    obtain ⟨p, hp⟩ := (hpe fuel (.seqL t .endT) v).1 hv
    obtain ⟨st, hr, -⟩ := hppE fuel (.seqL (.seqL t .endT) .endT) (.success v p) hp
    obtain ⟨g, stA, hA⟩ := runRaw_w2_w1 env src t fuel st _ hr
    exact ⟨g, (hpe g t v).2 ⟨p, hmk g (.seqL t .endT) stA (.success v p) hA (by simp)⟩⟩
  · intro fuel hv
    obtain ⟨st, hr⟩ := hppF fuel (.seqL t .endT) ((hpeErr fuel t).1 hv)
    cases fuel with
    | zero => rw [runRaw, drive_zero] at hr; cases hr
    | succ f =>
      obtain ⟨-, stB, hB⟩ := runRaw_w1_w2 env src t f st _ hr
      exact ⟨f + 6, (hpeErr (f + 6) (.seqL t .endT)).2
        (hmkF (f + 6) (.seqL (.seqL t .endT) .endT) stB hB)⟩
  · intro fuel hv
    obtain ⟨st, hr⟩ := hppF fuel (.seqL (.seqL t .endT) .endT) ((hpeErr fuel (.seqL t .endT)).1 hv)
    obtain ⟨g, stA, hA⟩ := runRaw_w2_w1 env src t fuel st _ hr
    exact ⟨g, (hpeErr g t).2 (hmkF g (.seqL t .endT) stA hA)⟩

/-- C2 witness: on the one-character source "a", parsing the literal "a"
succeeds with the value "a", the wrapped run ends at position 1 — the end of
the source — and the wrapped form succeeds with the same value. -/
theorem claim2_parse_wrapping_witness :
    parseE emptyEnv (.chars ['a']) 10 (.strlit "a") = .ok (.vstr "a") ∧
    (1 : Nat) = (Source.chars ['a']).length ∧
    (∃ fuel2, parseE emptyEnv (.chars ['a']) fuel2
      (.seqL (.strlit "a") .endT) = .ok (.vstr "a")) :=
  ⟨(claim2_parse_wrapping emptyEnv (.chars ['a']) (.strlit "a")).1 10 (.vstr "a") 1 (by rfl),
   (claim2_parse_wrapping emptyEnv (.chars ['a']) (.strlit "a")).2.1 10 (.vstr "a") 1 (by rfl),
   (claim2_parse_wrapping emptyEnv (.chars ['a']) (.strlit "a")).2.2.1 10 (.vstr "a")
     ((claim2_parse_wrapping emptyEnv (.chars ['a']) (.strlit "a")).1 10 (.vstr "a") 1
       (by rfl))⟩

end Sourcer
